import Mathlib

/-!
Verification of the EEG-to-MIDI dsp-processor core.

The Python sources are shallowly embedded: floating point numbers are
modelled as exact rationals (`ℚ`), machine integers as `ℤ`/`ℕ`, numpy
arrays as `List ℚ`, and raising an exception as `Except.error`.
Division on `ℚ` is total with `q / 0 = 0`; the source never divides by
zero on the inputs the theorems quantify over unless noted otherwise.

Part 1 embeds `eeg_segmenter.py` (class `EEGSegmenter`), part 2
`dsp_core.py` (class `DSPCore`), part 3 `music_bar.py` and
`music_note.py` (classes `BarGenerator`, `NoteGenerator`) together with
the pieces of `music_segment.py` they consume.
-/

/-- A closed EEG segment, from `eeg_segmenter.Segment`: inclusive sample
indices plus start and end times in seconds. -/
structure Segment where
  start_idx : ℕ
  end_idx : ℕ
  t_start : ℚ
  t_end : ℚ
deriving DecidableEq, Repr

/-- Configuration of `eeg_segmenter.EEGSegmenter.__init__`. -/
structure EEGSegmenter where
  fs : ℚ
  rel_threshold : ℚ := 1
  min_duration_sec : ℚ := 1
  use_abs : Bool := true
  eps : ℚ := 1 / 1000000000
deriving DecidableEq, Repr

/-- The `Segment(...)` construction used at every closing site of
`eeg_segmenter.py`: `t_start = start_idx / fs`, `t_end = end_idx / fs`. -/
def mkClosedSegment (cfg : EEGSegmenter) (s e : ℕ) : Segment :=
  ⟨s, e, (s : ℚ) / cfg.fs, (e : ℚ) / cfg.fs⟩

/-- `EEGSegmenter._preprocess_abs_signal`: apply `abs` when `use_abs`. -/
def preprocess_abs_signal (cfg : EEGSegmenter) (x : List ℚ) : List ℚ :=
  if cfg.use_abs then x.map (fun v => |v|) else x

/-- The `for i in range(1, n)` loop of `EEGSegmenter.segment_array`,
followed by the unconditional closing of the last segment.  The arguments
are the remaining samples `x[i:]`, the loop index `i`, and the loop state
`seg_start`, `seg_sum`, `seg_count`; the empty-list case performs the
final `segments.append` at index `n - 1 = i - 1`. -/
def segment_array_loop (cfg : EEGSegmenter) :
    List ℚ → ℕ → ℕ → ℚ → ℕ → List Segment
  | [], i, seg_start, _, _ => [mkClosedSegment cfg seg_start (i - 1)]
  | xi :: rest, i, seg_start, seg_sum, seg_count =>
    let mean_seg : ℚ := if 0 < seg_count then seg_sum / seg_count else 0
    let denom : ℚ := |mean_seg| + cfg.eps
    let rel_dev : ℚ := |xi - mean_seg| / denom
    let dur : ℚ := ((i : ℚ) - (seg_start : ℚ)) / cfg.fs
    if cfg.rel_threshold < rel_dev ∧ cfg.min_duration_sec ≤ dur then
      mkClosedSegment cfg seg_start (i - 1) ::
        segment_array_loop cfg rest (i + 1) i xi 1
    else
      segment_array_loop cfg rest (i + 1) seg_start (seg_sum + xi) (seg_count + 1)

/-- `EEGSegmenter.segment_array` (offline mode). -/
def segment_array (cfg : EEGSegmenter) (x : List ℚ) : List Segment :=
  match preprocess_abs_signal cfg x with
  | [] => []
  | x0 :: rest => segment_array_loop cfg rest 1 0 x0 1

/-- Streaming state of `EEGSegmenter` (`_current_start_idx`,
`_current_sum`, `_current_count`). -/
structure SegState where
  current_start_idx : Option ℕ
  current_sum : ℚ
  current_count : ℕ
deriving DecidableEq, Repr

/-- The state set by `EEGSegmenter._reset_state`. -/
def resetState : SegState := ⟨none, 0, 0⟩

/-- `EEGSegmenter.process_sample` (streaming mode): returns the updated
state and the list of segments closed by this call. -/
def process_sample (cfg : EEGSegmenter) (st : SegState) (x_i : ℚ) (idx : ℕ) :
    SegState × List Segment :=
  let x_val : ℚ := if cfg.use_abs then |x_i| else x_i
  match st.current_start_idx with
  | none => (⟨some idx, x_val, 1⟩, [])
  | some s =>
    let mean_seg : ℚ :=
      if 0 < st.current_count then st.current_sum / st.current_count else 0
    let denom : ℚ := |mean_seg| + cfg.eps
    let rel_dev : ℚ := |x_val - mean_seg| / denom
    let dur : ℚ := ((idx : ℚ) - (s : ℚ)) / cfg.fs
    if cfg.rel_threshold < rel_dev ∧ cfg.min_duration_sec ≤ dur then
      (⟨some idx, x_val, 1⟩, [mkClosedSegment cfg s (idx - 1)])
    else
      (⟨some s, st.current_sum + x_val, st.current_count + 1⟩, [])

/-- `EEGSegmenter.flush`: closes the open segment, if any, at `last_idx`.
(The state reset it also performs is irrelevant here: the state is
discarded after flushing.) -/
def flush (cfg : EEGSegmenter) (st : SegState) (last_idx : ℕ) : Option Segment :=
  match st.current_start_idx with
  | none => none
  | some s => some (mkClosedSegment cfg s last_idx)

/-- Feeding an indexed sample list through `process_sample`,
concatenating all closed segments, and returning the final state. -/
def stream_loop (cfg : EEGSegmenter) :
    SegState → List (ℕ × ℚ) → SegState × List Segment
  | st, [] => (st, [])
  | st, (idx, v) :: rest =>
    let r1 := process_sample cfg st v idx
    let r2 := stream_loop cfg r1.1 rest
    (r2.1, r1.2 ++ r2.2)

/-- The streaming path of the spec: `process_sample(x[i], i)` for
`i = 0..n-1` from a fresh state, then `flush(n-1)`. -/
def stream_segments (cfg : EEGSegmenter) (x : List ℚ) : List Segment :=
  let r := stream_loop cfg resetState (List.enumFrom 0 x)
  r.2 ++ (flush cfg r.1 (x.length - 1)).toList

/-- `abs` folded into one per-sample form shared by both paths. -/
def abs_val (cfg : EEGSegmenter) (v : ℚ) : ℚ := if cfg.use_abs then |v| else v

theorem preprocess_abs_cons (cfg : EEGSegmenter) (v : ℚ) (x : List ℚ) :
    preprocess_abs_signal cfg (v :: x) =
      abs_val cfg v :: preprocess_abs_signal cfg x := by
  unfold preprocess_abs_signal abs_val
  by_cases h : cfg.use_abs <;> simp [h]

theorem preprocess_abs_length (cfg : EEGSegmenter) (x : List ℚ) :
    (preprocess_abs_signal cfg x).length = x.length := by
  unfold preprocess_abs_signal
  by_cases h : cfg.use_abs <;> simp [h]

/-- The per-sample rules of `segment_array` and `process_sample` coincide:
from matching mid-stream states, the streaming suffix (closed segments
plus final flush) equals the batch loop. -/
theorem stream_loop_eq_batch (cfg : EEGSegmenter) :
    ∀ (rest : List ℚ) (i s : ℕ) (sum : ℚ) (cnt : ℕ), 1 ≤ i →
      (let r := stream_loop cfg ⟨some s, sum, cnt⟩ (List.enumFrom i rest)
       r.2 ++ (flush cfg r.1 (i + rest.length - 1)).toList) =
        segment_array_loop cfg (preprocess_abs_signal cfg rest) i s sum cnt := by
  intro rest
  induction rest with
  | nil =>
    intro i s sum cnt hi
    simp [stream_loop, flush, segment_array_loop, preprocess_abs_signal]
  | cons v rest ih =>
    intro i s sum cnt hi
    rw [preprocess_abs_cons]
    show (let r := stream_loop cfg ⟨some s, sum, cnt⟩ ((i, v) :: List.enumFrom (i + 1) rest)
          r.2 ++ (flush cfg r.1 (i + (v :: rest).length - 1)).toList) = _
    rw [segment_array_loop]
    simp only [stream_loop, process_sample, abs_val]
    by_cases hc :
        cfg.rel_threshold <
            |(if cfg.use_abs then |v| else v) -
              if 0 < cnt then sum / (cnt : ℚ) else 0| /
            (|if 0 < cnt then sum / (cnt : ℚ) else 0| + cfg.eps) ∧
          cfg.min_duration_sec ≤ ((i : ℚ) - (s : ℚ)) / cfg.fs
    · simp only [if_pos hc]
      have h2 := ih (i + 1) i (if cfg.use_abs then |v| else v) 1 (by omega)
      simp only at h2
      simp only [List.cons_append, List.length_cons]
      rw [show i + 1 + rest.length - 1 = i + (rest.length + 1) - 1 by omega] at h2
      rw [← h2]
      simp
    · simp only [if_neg hc]
      have h2 := ih (i + 1) s (sum + if cfg.use_abs then |v| else v) (cnt + 1) (by omega)
      simp only at h2
      simp only [List.nil_append, List.length_cons]
      rw [show i + 1 + rest.length - 1 = i + (rest.length + 1) - 1 by omega] at h2
      rw [← h2]

/-- The batch loop never returns an empty list and its last segment ends
at the last processed index. -/
theorem segment_array_loop_last (cfg : EEGSegmenter) :
    ∀ (rest : List ℚ) (i s : ℕ) (sum : ℚ) (cnt : ℕ),
      (segment_array_loop cfg rest i s sum cnt).getLast?.map Segment.end_idx =
        some (i + rest.length - 1) := by
  intro rest
  induction rest with
  | nil =>
    intro i s sum cnt
    simp [segment_array_loop, mkClosedSegment]
  | cons v rest ih =>
    intro i s sum cnt
    rw [segment_array_loop]
    by_cases hc :
        cfg.rel_threshold <
            |v - if 0 < cnt then sum / (cnt : ℚ) else 0| /
            (|if 0 < cnt then sum / (cnt : ℚ) else 0| + cfg.eps) ∧
          cfg.min_duration_sec ≤ ((i : ℚ) - (s : ℚ)) / cfg.fs
    · simp only [if_pos hc]
      have h2 := ih (i + 1) i v 1
      obtain ⟨seg, hseg, hend⟩ := Option.map_eq_some'.mp h2
      rw [List.getLast?_cons, hseg]
      simp only [Option.getD_some, Option.map_some', hend, List.length_cons]
      congr 1
      omega
    · simp only [if_neg hc]
      have h2 := ih (i + 1) s (sum + v) (cnt + 1)
      rw [h2, List.length_cons]
      congr 1
      omega

/-- Contiguous-partition invariant: `ChainFrom cfg a l b` states that `l`
is a nonempty list of closed segments covering exactly the index range
`[a, b]`, each built by `mkClosedSegment` (hence with `t_start`/`t_end`
equal to the indices divided by `fs`), consecutive segments abutting. -/
inductive ChainFrom (cfg : EEGSegmenter) : ℕ → List Segment → ℕ → Prop
  | single (s e : ℕ) (h : s ≤ e) : ChainFrom cfg s [mkClosedSegment cfg s e] e
  | cons (s e b : ℕ) (l : List Segment) (h : s ≤ e)
      (ht : ChainFrom cfg (e + 1) l b) :
      ChainFrom cfg s (mkClosedSegment cfg s e :: l) b

theorem ChainFrom.ne_nil {cfg : EEGSegmenter} {s b : ℕ} {l : List Segment}
    (h : ChainFrom cfg s l b) : l ≠ [] := by
  cases h <;> simp

theorem ChainFrom.head_start {cfg : EEGSegmenter} {s b : ℕ} {l : List Segment}
    (h : ChainFrom cfg s l b) : l.head?.map Segment.start_idx = some s := by
  cases h <;> simp [mkClosedSegment]

theorem ChainFrom.last_end {cfg : EEGSegmenter} {s b : ℕ} {l : List Segment}
    (h : ChainFrom cfg s l b) : l.getLast?.map Segment.end_idx = some b := by
  induction h with
  | single s e he => simp [mkClosedSegment]
  | cons s e b l he ht ih =>
    obtain ⟨seg, hseg, hend⟩ := Option.map_eq_some'.mp ih
    rw [List.getLast?_cons, hseg]
    simp [hend]

theorem ChainFrom.mem_bounds {cfg : EEGSegmenter} {s b : ℕ} {l : List Segment}
    (h : ChainFrom cfg s l b) :
    ∀ seg ∈ l, seg.start_idx ≤ seg.end_idx ∧
      seg.t_start = (seg.start_idx : ℚ) / cfg.fs ∧
      seg.t_end = (seg.end_idx : ℚ) / cfg.fs := by
  induction h with
  | single s e he =>
    intro seg hm
    simp at hm
    subst hm
    exact ⟨he, rfl, rfl⟩
  | cons s e b l he ht ih =>
    intro seg hm
    rcases List.mem_cons.mp hm with h1 | h2
    · subst h1; exact ⟨he, rfl, rfl⟩
    · exact ih seg h2

theorem ChainFrom.adjacent {cfg : EEGSegmenter} {s b : ℕ} {l : List Segment}
    (h : ChainFrom cfg s l b) :
    ∀ (j : ℕ) (a c : Segment), l[j]? = some a → l[j + 1]? = some c →
      c.start_idx = a.end_idx + 1 := by
  induction h with
  | single s e he =>
    intro j a c h1 h2
    rcases j with _ | j <;> simp at h2
  | cons s e b l he ht ih =>
    intro j a c h1 h2
    rcases j with _ | j
    · simp at h1
      have hh := ht.head_start
      have hl0 : l[0]? = some c := by simpa using h2
      rw [← List.head?_eq_getElem?] at hl0
      rw [hl0] at hh
      simp at hh
      rw [← h1, hh]
      simp [mkClosedSegment]
    · exact ih j a c (by simpa using h1) (by simpa using h2)

/-- The batch loop always produces a contiguous chain of segments from
`seg_start` to the last processed index. -/
theorem segment_array_loop_chain (cfg : EEGSegmenter) :
    ∀ (rest : List ℚ) (i s : ℕ) (sum : ℚ) (cnt : ℕ), s + 1 ≤ i →
      ChainFrom cfg s (segment_array_loop cfg rest i s sum cnt)
        (i + rest.length - 1) := by
  intro rest
  induction rest with
  | nil =>
    intro i s sum cnt hi
    rw [segment_array_loop]
    have hlen : i + ([] : List ℚ).length - 1 = i - 1 := by simp
    rw [hlen]
    exact ChainFrom.single s (i - 1) (by omega)
  | cons v rest ih =>
    intro i s sum cnt hi
    rw [segment_array_loop]
    by_cases hc :
        cfg.rel_threshold <
            |v - if 0 < cnt then sum / (cnt : ℚ) else 0| /
            (|if 0 < cnt then sum / (cnt : ℚ) else 0| + cfg.eps) ∧
          cfg.min_duration_sec ≤ ((i : ℚ) - (s : ℚ)) / cfg.fs
    · simp only [if_pos hc]
      have htail := ih (i + 1) i v 1 (by omega)
      have hlen : i + 1 + rest.length - 1 = i + (v :: rest).length - 1 := by
        simp only [List.length_cons]; omega
      rw [hlen] at htail
      have hstep : (i - 1) + 1 = i := by omega
      exact ChainFrom.cons s (i - 1) _ _ (by omega) (hstep ▸ htail)
    · simp only [if_neg hc]
      have htail := ih (i + 1) s (sum + v) (cnt + 1) (by omega)
      have hlen : i + 1 + rest.length - 1 = i + (v :: rest).length - 1 := by
        simp only [List.length_cons]; omega
      rw [hlen] at htail
      exact htail

/-- Claim C2: on a nonempty input, offline `segment_array` coincides with
the streaming path (`process_sample` on every sample in order, then
`flush` at the last index), and its last segment always ends at index
`n - 1`. -/
theorem claim_C2_segment_array_refines_streaming (cfg : EEGSegmenter)
    (x : List ℚ) (hx : x ≠ []) :
    segment_array cfg x = stream_segments cfg x ∧
    (segment_array cfg x).getLast?.map Segment.end_idx =
      some (x.length - 1) := by
  obtain ⟨v, rest, rfl⟩ := List.exists_cons_of_ne_nil hx
  have hbatch : segment_array cfg (v :: rest) =
      segment_array_loop cfg (preprocess_abs_signal cfg rest) 1 0
        (abs_val cfg v) 1 := by
    rw [segment_array, preprocess_abs_cons]
  have hstream : stream_segments cfg (v :: rest) =
      segment_array_loop cfg (preprocess_abs_signal cfg rest) 1 0
        (abs_val cfg v) 1 := by
    have h := stream_loop_eq_batch cfg rest 1 0 (abs_val cfg v) 1 (by omega)
    simp only at h
    rw [stream_segments]
    show (let r := stream_loop cfg resetState ((0, v) :: List.enumFrom 1 rest)
          r.2 ++ (flush cfg r.1 ((v :: rest).length - 1)).toList) = _
    simp only [stream_loop, resetState, process_sample, List.length_cons,
      List.nil_append]
    simp only [abs_val] at h ⊢
    rw [show rest.length + 1 - 1 = 1 + rest.length - 1 by omega]
    exact h
  constructor
  · rw [hbatch, hstream]
  · rw [hbatch, segment_array_loop_last, preprocess_abs_length]
    simp

/-- Witness for claim C2 at the concrete input `[1, 2]`. -/
theorem claim_C2_witness :
    ([1, 2] : List ℚ) ≠ [] ∧
    (segment_array ⟨250, 1, 1, true, 1 / 1000000000⟩ [1, 2] =
        stream_segments ⟨250, 1, 1, true, 1 / 1000000000⟩ [1, 2] ∧
      (segment_array ⟨250, 1, 1, true, 1 / 1000000000⟩ [1, 2]).getLast?.map
          Segment.end_idx = some (([1, 2] : List ℚ).length - 1)) :=
  ⟨by simp, claim_C2_segment_array_refines_streaming _ [1, 2] (by simp)⟩

/-- On a constant signal the batch loop never closes early: with the
running sum equal to `count` times the constant, the relative deviation
is `0` and the loop accumulates to the end. -/
theorem segment_array_loop_const (cfg : EEGSegmenter) (c : ℚ)
    (hthr : 0 < cfg.rel_threshold) :
    ∀ (m i k : ℕ) (sum : ℚ), 1 ≤ k → sum = (k : ℚ) * c →
      segment_array_loop cfg (List.replicate m c) i 0 sum k =
        [mkClosedSegment cfg 0 (i + m - 1)] := by
  intro m
  induction m with
  | zero =>
    intro i k sum hk hsum
    rw [List.replicate_zero, segment_array_loop]
    simp
  | succ m ih =>
    intro i k sum hk hsum
    rw [List.replicate_succ, segment_array_loop, hsum]
    have hk0 : (k : ℚ) ≠ 0 := Nat.cast_ne_zero.mpr (by omega)
    have hmean : (if 0 < k then ((k : ℚ) * c) / (k : ℚ) else 0) = c := by
      rw [if_pos (by omega), mul_comm, mul_div_assoc, div_self hk0, mul_one]
    rw [hmean]
    have hdev : |c - c| / (|c| + cfg.eps) = 0 := by
      rw [sub_self, abs_zero, zero_div]
    rw [hdev]
    rw [if_neg (by intro h; exact absurd h.1 (by exact not_lt.mpr hthr.le))]
    have hnext : (k : ℚ) * c + c = ((k + 1 : ℕ) : ℚ) * c := by
      push_cast
      ring
    have hidx : i + (m + 1) - 1 = i + 1 + m - 1 := by omega
    rw [ih (i + 1) (k + 1) ((k : ℚ) * c + c) (by omega) hnext, hidx]

/-- Claim C9: on a constant array of length `n ≥ 1`, with a positive
relative threshold (and positive `eps`, as in the Python default, so the
deviation quotient is well defined), `segment_array` returns exactly one
segment spanning indices `0 .. n-1`. -/
theorem claim_C9_constant_input_single_segment (cfg : EEGSegmenter)
    (c : ℚ) (n : ℕ) (hn : 1 ≤ n) (hthr : 0 < cfg.rel_threshold)
    (heps : 0 < cfg.eps) :
    segment_array cfg (List.replicate n c) =
      [mkClosedSegment cfg 0 (n - 1)] ∧
    (mkClosedSegment cfg 0 (n - 1)).start_idx = 0 ∧
    (mkClosedSegment cfg 0 (n - 1)).end_idx = n - 1 := by
  refine ⟨?_, rfl, rfl⟩
  obtain ⟨m, rfl⟩ : ∃ m, n = m + 1 := ⟨n - 1, by omega⟩
  have habs : preprocess_abs_signal cfg (List.replicate (m + 1) c) =
      List.replicate (m + 1) (abs_val cfg c) := by
    unfold preprocess_abs_signal abs_val
    by_cases h : cfg.use_abs <;> simp [h]
  rw [segment_array, habs, List.replicate_succ]
  have hone : abs_val cfg c = ((1 : ℕ) : ℚ) * abs_val cfg c := by simp
  show segment_array_loop cfg (List.replicate m (abs_val cfg c)) 1 0
      (abs_val cfg c) 1 = _
  rw [segment_array_loop_const cfg (abs_val cfg c) hthr m 1 1
    (abs_val cfg c) (by omega) hone,
    show (1 : ℕ) + m - 1 = m + 1 - 1 by omega]

/-- Witness for claim C9: three constant samples, default configuration. -/
theorem claim_C9_witness :
    1 ≤ 3 ∧ (0 : ℚ) < 1 ∧ (0 : ℚ) < 1 / 1000000000 ∧
    segment_array ⟨250, 1, 1, true, 1 / 1000000000⟩ (List.replicate 3 7) =
      [mkClosedSegment ⟨250, 1, 1, true, 1 / 1000000000⟩ 0 (3 - 1)] :=
  ⟨by omega, by norm_num, by norm_num,
    (claim_C9_constant_input_single_segment _ 7 3 (by omega) (by norm_num)
      (by norm_num)).1⟩

/-- Claim C10: on a nonempty input the segment list partitions the index
range `0 .. n-1` contiguously, with the time fields equal to the indices
divided by `fs`, and the streaming path produces the same list. -/
theorem claim_C10_partition_invariant (cfg : EEGSegmenter)
    (x : List ℚ) (hx : x ≠ []) :
    (segment_array cfg x ≠ [] ∧
      (segment_array cfg x).head?.map Segment.start_idx = some 0 ∧
      (segment_array cfg x).getLast?.map Segment.end_idx =
        some (x.length - 1) ∧
      (∀ seg ∈ segment_array cfg x,
        seg.start_idx ≤ seg.end_idx ∧
        seg.t_start = (seg.start_idx : ℚ) / cfg.fs ∧
        seg.t_end = (seg.end_idx : ℚ) / cfg.fs) ∧
      (∀ (j : ℕ) (a c : Segment), (segment_array cfg x)[j]? = some a →
        (segment_array cfg x)[j + 1]? = some c →
        c.start_idx = a.end_idx + 1)) ∧
    stream_segments cfg x = segment_array cfg x := by
  obtain ⟨v, rest, rfl⟩ := List.exists_cons_of_ne_nil hx
  have hbatch : segment_array cfg (v :: rest) =
      segment_array_loop cfg (preprocess_abs_signal cfg rest) 1 0
        (abs_val cfg v) 1 := by
    rw [segment_array, preprocess_abs_cons]
  have hchain := segment_array_loop_chain cfg
    (preprocess_abs_signal cfg rest) 1 0 (abs_val cfg v) 1 (by omega)
  rw [preprocess_abs_length] at hchain
  rw [← hbatch] at hchain
  have hb : 1 + rest.length - 1 = (v :: rest).length - 1 := by simp
  rw [hb] at hchain
  refine ⟨⟨hchain.ne_nil, hchain.head_start, hchain.last_end,
      hchain.mem_bounds, hchain.adjacent⟩, ?_⟩
  exact ((claim_C2_segment_array_refines_streaming cfg (v :: rest)
    (by simp)).1).symm

/-- Witness for claim C10 at the concrete input `[5, 9, 2]`. -/
theorem claim_C10_witness :
    ([5, 9, 2] : List ℚ) ≠ [] ∧
    ((segment_array ⟨250, 1, 1, true, 1 / 1000000000⟩ [5, 9, 2] ≠ [] ∧
      (segment_array ⟨250, 1, 1, true, 1 / 1000000000⟩ [5, 9, 2]).head?.map
          Segment.start_idx = some 0 ∧
      (segment_array ⟨250, 1, 1, true, 1 / 1000000000⟩
            [5, 9, 2]).getLast?.map Segment.end_idx =
        some (([5, 9, 2] : List ℚ).length - 1) ∧
      (∀ seg ∈ segment_array ⟨250, 1, 1, true, 1 / 1000000000⟩ [5, 9, 2],
        seg.start_idx ≤ seg.end_idx ∧
        seg.t_start = (seg.start_idx : ℚ) / (250 : ℚ) ∧
        seg.t_end = (seg.end_idx : ℚ) / (250 : ℚ)) ∧
      (∀ (j : ℕ) (a c : Segment),
        (segment_array ⟨250, 1, 1, true, 1 / 1000000000⟩ [5, 9, 2])[j]? =
          some a →
        (segment_array ⟨250, 1, 1, true, 1 / 1000000000⟩
            [5, 9, 2])[j + 1]? = some c →
        c.start_idx = a.end_idx + 1)) ∧
    stream_segments ⟨250, 1, 1, true, 1 / 1000000000⟩ [5, 9, 2] =
      segment_array ⟨250, 1, 1, true, 1 / 1000000000⟩ [5, 9, 2]) :=
  ⟨by simp, claim_C10_partition_invariant _ [5, 9, 2] (by simp)⟩

/-! Part 2: `dsp_core.py` (`class DSPCore`).  Transcendental kernels
(FFT-based PSD estimators, `np.log`, `np.log10`) have no exact rational
value; they are abstracted into a `PsdKernels` record over which every
theorem quantifies.  Everything else (guards, dispatch, trapezoidal
band power, rescaling, detrend, robust outlier repair) is embedded
exactly. -/

/-- Python `int(q)`: truncation toward zero. -/
def pyTrunc (q : ℚ) : ℤ := if 0 ≤ q then ⌊q⌋ else ⌈q⌉

/-- Python 3 `round(q)`: round half to even. -/
def pyRound (q : ℚ) : ℤ :=
  let f := ⌊q⌋
  let r := q - (f : ℚ)
  if r < 1 / 2 then f
  else if 1 / 2 < r then f + 1
  else if f % 2 = 0 then f else f + 1

/-- `np.max` on a list (0 on an empty list, which the source guards). -/
def pyListMax : List ℚ → ℚ
  | [] => 0
  | a :: t => t.foldl max a

/-- `np.min` on a list (0 on an empty list, which the source guards). -/
def pyListMin : List ℚ → ℚ
  | [] => 0
  | a :: t => t.foldl min a

/-- `np.median`: middle element of the sorted list, or the average of the
two middle elements for even length. -/
def pyMedian (l : List ℚ) : ℚ :=
  let s := List.insertionSort (fun a b : ℚ => a ≤ b) l
  let n := l.length
  if n = 0 then 0
  else if n % 2 = 1 then s.getD (n / 2) 0
  else (s.getD (n / 2 - 1) 0 + s.getD (n / 2) 0) / 2

/-- `np.interp xq xp fp` on the list of `(xp, fp)` pairs: constant
extrapolation outside the nodes, linear interpolation between
consecutive nodes.  (The source only calls it with at least two nodes.) -/
def np_interp (xq : ℚ) : List (ℚ × ℚ) → ℚ
  | [] => 0
  | [p] => p.2
  | p :: q :: rest =>
    if xq ≤ p.1 then p.2
    else if xq ≤ q.1 then p.2 + (q.2 - p.2) * (xq - p.1) / (q.1 - p.1)
    else np_interp xq (q :: rest)

/-- `scipy.signal.detrend(y, type="linear")`: subtract the least-squares
line over the index axis, written through the closed-form normal
equations (exact in rational arithmetic). -/
def linear_detrend (y : List ℚ) : List ℚ :=
  let n := y.length
  let xbar : ℚ := ((n : ℚ) - 1) / 2
  let ybar : ℚ := y.sum / (n : ℚ)
  let sxx : ℚ :=
    ((List.enumFrom 0 y).map (fun p => ((p.1 : ℚ) - xbar) ^ 2)).sum
  let sxy : ℚ :=
    ((List.enumFrom 0 y).map (fun p => ((p.1 : ℚ) - xbar) * (p.2 - ybar))).sum
  let slope := if sxx = 0 then 0 else sxy / sxx
  let intercept := ybar - slope * xbar
  (List.enumFrom 0 y).map (fun p => p.2 - (intercept + slope * (p.1 : ℚ)))

/-- Configuration of `dsp_core.DSPCore.__init__` (defaults as in the
source; `bands` keeps the insertion order of the Python dict). -/
structure DSPCore where
  fs : ℚ
  window_sec : ℚ := 4
  window_type : String := "hann"
  welch_overlap : ℚ := 1 / 2
  bands : List (String × ℚ × ℚ) :=
    [("delta", 1 / 2, 4), ("theta", 4, 8), ("alpha", 8, 13),
      ("beta", 13, 30), ("gamma", 30, 50)]
  mt_nw : ℚ := 5 / 2
  mt_n_tapers : Option ℕ := none
  outlier_zscore : ℚ := 5
  interpolate_outliers : Bool := true
  clipping_fraction_threshold : ℚ := 1 / 100
deriving DecidableEq, Repr

/-- `self.window_samples = max(1, int(round(fs * window_sec)))`. -/
def window_samples (cfg : DSPCore) : ℕ :=
  max 1 (pyRound (cfg.fs * cfg.window_sec)).toNat

/-- `DSPCore._detect_clipping`: informational only, never alters data.
`np.isclose(a, b, atol=1e-9)` keeps numpy's default `rtol = 1e-5`. -/
def detect_clipping (cfg : DSPCore) (x : List ℚ) : Bool :=
  if x.length < 4 then false
  else
    let max_val := pyListMax x
    let min_val := pyListMin x
    let close : ℚ → ℚ → Bool := fun a b =>
      decide (|a - b| ≤ 1 / 1000000000 + (1 / 100000) * |b|)
    let n_max := (x.filter (fun v => close v max_val)).length
    let n_min := (x.filter (fun v => close v min_val)).length
    decide (cfg.clipping_fraction_threshold ≤
      ((n_max : ℚ) + (n_min : ℚ)) / (x.length : ℚ))

/-- `DSPCore.preprocess`: detrend (when `≥ 4` samples), clipping
detection (informational, omitted here since it never alters the data),
then robust outlier repair (when `≥ 5` samples and the median absolute
deviation is positive): linear interpolation over the good samples when
at least two remain, otherwise a soft clamp at the z-threshold. -/
def preprocess (cfg : DSPCore) (detrend remove_outliers : Bool)
    (x : List ℚ) : List ℚ :=
  if x.length = 0 then x
  else
    let y := if detrend ∧ 4 ≤ x.length then linear_detrend x else x
    if remove_outliers ∧ 5 ≤ y.length then
      let median := pyMedian y
      let mad := pyMedian (y.map (fun v => |v - median|))
      if 0 < mad then
        let z := y.map (fun v => 6745 / 10000 * (v - median) / mad)
        let out : ℚ → Bool := fun zi => decide (cfg.outlier_zscore < |zi|)
        let n_out := (z.filter out).length
        if 0 < n_out then
          if cfg.interpolate_outliers ∧
              2 ≤ (z.filter (fun zi => ¬ out zi)).length then
            let pairs := List.enumFrom 0 (y.zip z)
            let good := (pairs.filter (fun p => ¬ out p.2.2)).map
              (fun p => ((p.1 : ℚ), p.2.1))
            pairs.map (fun p =>
              if out p.2.2 then np_interp (p.1 : ℚ) good else p.2.1)
          else
            z.map (fun zi =>
              median +
                max (-cfg.outlier_zscore) (min cfg.outlier_zscore zi) *
                  mad / (6745 / 10000))
        else y
      else y
    else y

/-- The median absolute deviation that `preprocess` tests against zero. -/
def mad_of (y : List ℚ) : ℚ := pyMedian (y.map (fun v => |v - pyMedian y|))

/-- The detrend stage of `preprocess` with default flags: `signal.detrend`
is applied as soon as the input has at least 4 samples. -/
def detrend_stage (x : List ℚ) : List ℚ :=
  if 4 ≤ x.length then linear_detrend x else x

theorem linear_detrend_length (y : List ℚ) :
    (linear_detrend y).length = y.length := by
  simp [linear_detrend]

theorem preprocess_length (cfg : DSPCore) (dt ro : Bool) (x : List ℚ) :
    (preprocess cfg dt ro x).length = x.length := by
  unfold preprocess
  by_cases h0 : x.length = 0
  · simp [h0]
  rw [if_neg h0]
  have hy : (if dt ∧ 4 ≤ x.length then linear_detrend x else x).length
      = x.length := by
    by_cases h : dt ∧ 4 ≤ x.length <;> simp [h, linear_detrend_length]
  set y := if dt ∧ 4 ≤ x.length then linear_detrend x else x with hydef
  by_cases h1 : ro ∧ 5 ≤ y.length
  · rw [if_pos h1]
    by_cases h2 : 0 < pyMedian (y.map (fun v => |v - pyMedian y|))
    · rw [if_pos h2]
      by_cases h3 : 0 <
          ((y.map (fun v => 6745 / 10000 * (v - pyMedian y) / pyMedian
            (y.map (fun w => |w - pyMedian y|)))).filter
            (fun zi => decide (cfg.outlier_zscore < |zi|))).length
      · rw [if_pos h3]
        by_cases h4 : cfg.interpolate_outliers ∧ 2 ≤
            ((y.map (fun v => 6745 / 10000 * (v - pyMedian y) / pyMedian
              (y.map (fun w => |w - pyMedian y|)))).filter
              (fun zi => ¬ decide (cfg.outlier_zscore < |zi|))).length
        · rw [if_pos h4]
          simp [hy]
        · rw [if_neg h4]
          simp [hy]
      · rw [if_neg h3]
        exact hy
    · rw [if_neg h2]
      exact hy
  · rw [if_neg h1]
    exact hy

/-- When the input is short or the (post-detrend) median absolute
deviation vanishes, `preprocess` stops after the detrend stage. -/
theorem preprocess_skip (cfg : DSPCore) (dt ro : Bool) (x : List ℚ)
    (hskip : x.length < 5 ∨
      mad_of (if dt ∧ 4 ≤ x.length then linear_detrend x else x) = 0) :
    preprocess cfg dt ro x =
      (if dt ∧ 4 ≤ x.length then linear_detrend x else x) := by
  by_cases h0 : x.length = 0
  · have h4 : ¬ (dt = true ∧ 4 ≤ x.length) := by
      rintro ⟨_, h4⟩; omega
    rw [preprocess, if_pos h0, if_neg h4]
  · unfold preprocess
    rw [if_neg h0]
    set y := if dt ∧ 4 ≤ x.length then linear_detrend x else x with hydef
    have hylen : y.length = x.length := by
      rw [hydef]
      by_cases h : dt ∧ 4 ≤ x.length <;> simp [h, linear_detrend_length]
    by_cases h1 : ro ∧ 5 ≤ y.length
    · rw [if_pos h1]
      have hmad : pyMedian (y.map (fun v => |v - pyMedian y|)) = 0 := by
        rcases hskip with h5 | hm
        · exfalso
          have := h1.2
          omega
        · simpa [mad_of] using hm
      simp only [hmad]
      rw [if_neg (lt_irrefl 0)]
    · rw [if_neg h1]

/-- Claim C5 (amended): inputs with fewer than 4 samples come back
unchanged; inputs with fewer than 5 samples, or whose post-detrend
median absolute deviation is 0, skip the outlier-repair stage, so
`preprocess` returns exactly the detrend stage of the input (the
detrend itself already alters inputs of 4 or more samples in general). -/
theorem claim_C5_preprocess_passthrough (cfg : DSPCore) (x : List ℚ) :
    (x.length < 4 → preprocess cfg true true x = x) ∧
    (x.length < 5 → preprocess cfg true true x = detrend_stage x) ∧
    (mad_of (detrend_stage x) = 0 →
      preprocess cfg true true x = detrend_stage x) := by
  have hds : (if (true : Bool) ∧ 4 ≤ x.length then linear_detrend x else x)
      = detrend_stage x := by
    simp [detrend_stage]
  refine ⟨?_, ?_, ?_⟩
  · intro h
    have hp := preprocess_skip cfg true true x (Or.inl (by omega))
    rw [hds] at hp
    rw [hp]
    unfold detrend_stage
    rw [if_neg (by omega)]
  · intro h
    have hp := preprocess_skip cfg true true x (Or.inl h)
    rw [hds] at hp
    exact hp
  · intro h
    have hp := preprocess_skip cfg true true x (Or.inr (by rw [hds]; exact h))
    rw [hds] at hp
    exact hp

/-- The `DSPCore` default configuration (`fs = 250`). -/
def dspDefault : DSPCore :=
  ⟨250, 4, "hann", 1 / 2,
    [("delta", 1 / 2, 4), ("theta", 4, 8), ("alpha", 8, 13),
      ("beta", 13, 30), ("gamma", 30, 50)],
    5 / 2, none, 5, true, 1 / 100⟩

/-- Counterexample to claim C5 as stated: a 4-sample input (fewer than
5) and a constant 5-sample input (median absolute deviation 0) are both
altered by `preprocess`, because linear detrend already runs at 4 or
more samples. -/
theorem claim_C5_counterexample :
    preprocess dspDefault true true [0, 1, 2, 3] ≠ [0, 1, 2, 3] ∧
    preprocess dspDefault true true [7, 7, 7, 7, 7] ≠ [7, 7, 7, 7, 7] := by
  have hdet1 : linear_detrend [0, 1, 2, 3] = [0, 0, 0, 0] := by
    norm_num [linear_detrend, List.enumFrom]
  have hdet2 : linear_detrend [7, 7, 7, 7, 7] = [0, 0, 0, 0, 0] := by
    norm_num [linear_detrend, List.enumFrom]
  have h1 : preprocess dspDefault true true [0, 1, 2, 3] = [0, 0, 0, 0] := by
    have hp := preprocess_skip dspDefault true true [0, 1, 2, 3]
      (Or.inl (by norm_num))
    simp only [List.length_cons, List.length_nil] at hp
    norm_num at hp
    rw [hp, hdet1]
  have h2 : preprocess dspDefault true true [7, 7, 7, 7, 7]
      = [0, 0, 0, 0, 0] := by
    have hmad : mad_of (if (true : Bool) ∧
        4 ≤ ([7, 7, 7, 7, 7] : List ℚ).length then
          linear_detrend [7, 7, 7, 7, 7] else [7, 7, 7, 7, 7]) = 0 := by
      norm_num [hdet2, mad_of, pyMedian, List.insertionSort, List.orderedInsert]
    have hp := preprocess_skip dspDefault true true [7, 7, 7, 7, 7]
      (Or.inr hmad)
    norm_num [hdet2] at hp
    exact hp
  constructor
  · rw [h1]
    norm_num
  · rw [h2]
    norm_num

/-- Witness for the amended claim C5 at the 3-sample input `[1, 2, 3]`. -/
theorem claim_C5_witness :
    (([1, 2, 3] : List ℚ).length < 4 →
      preprocess dspDefault true true [1, 2, 3] = [1, 2, 3]) ∧
    (([1, 2, 3] : List ℚ).length < 5 →
      preprocess dspDefault true true [1, 2, 3] =
        detrend_stage [1, 2, 3]) ∧
    (mad_of (detrend_stage [1, 2, 3]) = 0 →
      preprocess dspDefault true true [1, 2, 3] =
        detrend_stage [1, 2, 3]) :=
  claim_C5_preprocess_passthrough dspDefault [1, 2, 3]

/-- The irrational-valued numeric kernels of `dsp_core.py`, abstracted:
`scipy.signal.periodogram`, `scipy.signal.welch` (window construction,
FFTs), the DPSS-tapered periodogram average of
`DSPCore._compute_psd_multitaper` *after* `scipy.signal.windows.dpss`
parameter validation (`dpss_raises` below models the validation
exactly; only the post-validation numerics are abstract), and `np.log`
/ `np.log10`.  The periodogram and welch kernels are total: this is
faithful for the default `window_type = "hann"` (and any name
`scipy.signal.get_window` recognises), which is how the theorems using
them are scoped.  Every theorem below holds for every instantiation of
this record. -/
structure PsdKernels where
  periodogram_kernel : Bool → List ℚ → List ℚ × List ℚ
  welch_kernel : Bool → ℕ → ℕ → List ℚ → List ℚ × List ℚ
  multitaper_pxx : List ℚ → List ℚ
  ln_fn : ℚ → ℚ
  log10_fn : ℚ → ℚ

/-- ASCII lowercasing of one character, as Python `str.lower` does for
the method names used here.  (`String.toLower` itself is defined by
recursion on byte positions and does not evaluate inside proofs, so the
model maps over the character list instead.) -/
def py_char_lower (c : Char) : Char :=
  if 65 ≤ c.toNat ∧ c.toNat ≤ 90 then Char.ofNat (c.toNat + 32) else c

/-- Python `method.lower()` for ASCII method names. -/
def py_lower (s : String) : String := ⟨s.data.map py_char_lower⟩

/-- `np.fft.rfftfreq(n, d = 1/fs)`: the exact axis `k * fs / n` for
`k = 0 .. n / 2`. -/
def rfftfreq (n : ℕ) (fs : ℚ) : List ℚ :=
  (List.range (n / 2 + 1)).map (fun k => (k : ℚ) * fs / (n : ℚ))

/-- The taper count the constructor resolves:
`mt_n_tapers if given else max(1, int(2 * mt_nw - 1))`. -/
def mt_tapers_of (cfg : DSPCore) : ℕ :=
  match cfg.mt_n_tapers with
  | some k => k
  | none => (max 1 (pyTrunc (2 * cfg.mt_nw - 1))).toNat

/-- The parameter validation of `scipy.signal.windows.dpss(M, NW,
Kmax=K)`, in source order: lengths `M ≤ 1` return `np.ones(M)` without
validating; then `ValueError` unless `0 < Kmax ≤ M`, unless `NW < M/2`
(checked on the passed `M`, before the `sym=False` extension), and
unless `0 < NW`.  (`norm` is left at its default, which is always
valid.)  Returns the raised message, `none` when the call succeeds. -/
def dpss_raises (M : ℕ) (NW : ℚ) (Kmax : ℕ) : Option String :=
  if M ≤ 1 then none
  else if ¬ (0 < Kmax ∧ Kmax ≤ M) then
    some "Kmax must be greater than 0 and less than M"
  else if (M : ℚ) / 2 ≤ NW then some "NW must be less than M/2."
  else if NW ≤ 0 then some "NW must be positive"
  else none

/-- `DSPCore._compute_psd_multitaper`: guards, the `windows.dpss`
parameter validation (whose `ValueError` propagates; with the default
`mt_nw = 2.5` it fires for every window of 4 or 5 samples) and the
frequency axis are exact; the tapered power values are the abstract
kernel applied to the trailing window `x[-n_win:]`. -/
def compute_psd_multitaper (K : PsdKernels) (cfg : DSPCore) (x : List ℚ) :
    Except String (Option (List ℚ × List ℚ)) :=
  let n := x.length
  if n < 4 then .ok none
  else
    let n_win := min (window_samples cfg) n
    if n_win < 4 then .ok none
    else
      match dpss_raises n_win cfg.mt_nw (mt_tapers_of cfg) with
      | some e => .error e
      | none =>
        let x_seg := x.drop (n - n_win)
        .ok (some (rfftfreq n_win cfg.fs, K.multitaper_pxx x_seg))

/-- `DSPCore.compute_psd`: optional preprocessing, the `< 4` sample
guard, then dispatch on the lowercased method name; an unknown name
raises `NotImplementedError` (modelled as `Except.error`). -/
def compute_psd (K : PsdKernels) (cfg : DSPCore) (method : String)
    (nperseg noverlap : Option ℤ) (apply_window do_preprocess : Bool)
    (x : List ℚ) : Except String (Option (List ℚ × List ℚ)) :=
  let x := if do_preprocess then preprocess cfg true true x else x
  let n := x.length
  if n < 4 then .ok none
  else
    let m := py_lower method
    if m = "periodogram" then .ok (some (K.periodogram_kernel apply_window x))
    else if m = "welch" then
      let nper : ℤ := match nperseg with
        | none => min (window_samples cfg : ℤ) (n : ℤ)
        | some v => min v (n : ℤ)
      if nper < 4 then .ok none
      else
        let nov : ℤ := match noverlap with
          | none => pyTrunc ((nper : ℚ) * cfg.welch_overlap)
          | some v => v
        let nov := max 0 (min nov (nper - 1))
        .ok (some (K.welch_kernel apply_window nper.toNat nov.toNat x))
    else if m = "multitaper" then compute_psd_multitaper K cfg x
    else .error ("Metodo PSD no soportado: " ++ method)

/-- `np.trapezoid(y, x)` over a list of `(x, y)` pairs. -/
def trapezoid : List (ℚ × ℚ) → ℚ
  | (x1, y1) :: (x2, y2) :: rest =>
    (x2 - x1) * (y1 + y2) / 2 + trapezoid ((x2, y2) :: rest)
  | _ => 0

/-- `DSPCore.compute_bandpower`: trapezoidal integral of the PSD over
each configured band (0 for uncovered bands), divided by the full-range
integral when `relative` and the total is positive. -/
def compute_bandpower (cfg : DSPCore) (freqs pxx : List ℚ)
    (relative : Bool) : List (String × ℚ) :=
  if freqs.length = 0 ∨ pxx.length = 0 then []
  else
    let pts := freqs.zip pxx
    let total_power := trapezoid pts
    cfg.bands.map (fun b =>
      let sel := pts.filter (fun p => b.2.1 ≤ p.1 ∧ p.1 ≤ b.2.2)
      if sel = [] then (b.1, 0)
      else
        let power := trapezoid sel
        (b.1, if relative ∧ 0 < total_power then power / total_power
          else power))

/-- `np.argmax`: index of the first maximal element. -/
def argmax_from (best_idx : ℕ) (best : ℚ) (i : ℕ) : List ℚ → ℕ
  | [] => best_idx
  | v :: rest =>
    if best < v then argmax_from i v (i + 1) rest
    else argmax_from best_idx best (i + 1) rest

/-- `np.argmax` over a list (0 on the empty list, which numpy rejects;
the callers guard non-emptiness through the PSD result). -/
def argmax_idx : List ℚ → ℕ
  | [] => 0
  | a :: t => argmax_from 0 a 1 t

/-- The `_peak_in_band` helper of `DSPCore.compute_features`. -/
def peak_in_band (freqs pxx : List ℚ) (f_low f_high : ℚ) : Option ℚ :=
  let sel := (freqs.zip pxx).filter (fun p => f_low ≤ p.1 ∧ p.1 ≤ f_high)
  if sel = [] then none
  else
    let j := argmax_idx (sel.map Prod.snd)
    some ((sel.map Prod.fst).getD j 0)

/-- `self.bands.get(name, default)`. -/
def band_lookup (cfg : DSPCore) (name : String) (dflt : ℚ × ℚ) : ℚ × ℚ :=
  match cfg.bands.find? (fun b => b.1 = name) with
  | some b => b.2
  | none => dflt

/-- Sum of the values of a name-to-power association list
(`sum(band_abs.values())`). -/
def sum_values (l : List (String × ℚ)) : ℚ := (l.map Prod.snd).sum

/-- `np.mean(x ** 2)`: the exact square of the float
`rms = sqrt(mean(x ** 2))`. -/
def mean_sq (x : List ℚ) : ℚ := (x.map (fun v => v ^ 2)).sum / (x.length : ℚ)

/-- The result dict of `DSPCore.compute_features`.  The float field
`rms` is irrational in general; the model carries its exact square
`rms_sq`, which is what the rescaling step uses (`total_time_power =
rms ** 2`). -/
structure EEGFeatures where
  rms_sq : ℚ
  freqs : List ℚ
  psd : List ℚ
  bandpower_abs : List (String × ℚ)
  bandpower_rel : List (String × ℚ)
  peak_freq : ℚ
  peak_alpha : Option ℚ
  peak_delta : Option ℚ
  peak_theta : Option ℚ
  peak_gamma : Option ℚ
  peak_beta : Option ℚ
deriving DecidableEq, Repr

/-- `DSPCore.compute_features`: the `< 4` guard, preprocessing for the
rms, PSD on the raw window (`preprocess=False` at the call site), band
powers, the rescale of absolute band power to the time-domain power,
and the spectral peaks. -/
def compute_features (K : PsdKernels) (cfg : DSPCore) (psd_method : String)
    (nperseg noverlap : Option ℤ) (x : List ℚ) :
    Except String (Option EEGFeatures) :=
  if x.length < 4 then .ok none
  else
    let x_prep := preprocess cfg true true x
    let rms_sq := mean_sq x_prep
    match compute_psd K cfg psd_method nperseg noverlap true false x with
    | .error e => .error e
    | .ok none => .ok none
    | .ok (some (freqs, pxx)) =>
      let band_abs := compute_bandpower cfg freqs pxx false
      let total_psd_power_raw := sum_values band_abs
      let band_rel :=
        if 0 < total_psd_power_raw then
          band_abs.map (fun p => (p.1, p.2 / total_psd_power_raw))
        else band_abs.map (fun p => (p.1, (0 : ℚ)))
      let total_psd_power := sum_values band_abs
      let band_abs2 :=
        if 0 < total_psd_power then
          band_abs.map (fun p => (p.1, p.2 * (rms_sq / total_psd_power)))
        else band_abs
      let idx_peak := argmax_idx pxx
      let peak_freq := freqs.getD idx_peak 0
      let delta_band := band_lookup cfg "delta" (1 / 2, 4)
      let theta_band := band_lookup cfg "theta" (4, 8)
      let alpha_band := band_lookup cfg "alpha" (8, 13)
      let beta_band := band_lookup cfg "beta" (13, 30)
      let gamma_band := band_lookup cfg "gamma" (30, 50)
      .ok (some
        ⟨rms_sq, freqs, pxx, band_abs2, band_rel, peak_freq,
          peak_in_band freqs pxx alpha_band.1 alpha_band.2,
          peak_in_band freqs pxx delta_band.1 delta_band.2,
          peak_in_band freqs pxx theta_band.1 theta_band.2,
          peak_in_band freqs pxx gamma_band.1 gamma_band.2,
          peak_in_band freqs pxx beta_band.1 beta_band.2⟩)

/-- `DSPCore.compute_spectral_stability`: `< 4` guard, PSD restricted to
`[fmin, fmax]`, flooring at `1e-20`, Shannon entropy (through the
abstract `np.log`), normalisation by `log N`, `1 - H_norm`; every empty
or degenerate case yields the NaN sentinel, modelled as `none`. -/
def compute_spectral_stability (K : PsdKernels) (cfg : DSPCore)
    (fmin fmax : ℚ) (psd_method : String) (x : List ℚ) :
    Except String (Option ℚ) :=
  if x.length < 4 then .ok none
  else
    match compute_psd K cfg psd_method none none true true x with
    | .error e => .error e
    | .ok none => .ok none
    | .ok (some (freqs, pxx)) =>
      let sel := (freqs.zip pxx).filter (fun p => fmin ≤ p.1 ∧ p.1 ≤ fmax)
      if sel = [] then .ok none
      else
        let p0 := sel.map (fun q => max q.2 (1 / 10 ^ 20))
        let p_sum := p0.sum
        if p_sum ≤ 0 then .ok none
        else
          let p := p0.map (fun v => v / p_sum)
          let entropy := -((p.map (fun v => v * K.ln_fn v)).sum)
          let n_bins := p.length
          let h_max := if 0 < n_bins then K.ln_fn (n_bins : ℚ) else 0
          if h_max ≤ 0 then .ok none
          else .ok (some (1 - entropy / h_max))

/-- The window length in samples used by `DSPCore.compute_spectrogram`:
`max(1, min(int(round(window_sec * fs)), n_total))`. -/
def spectrogram_win_samples (cfg : DSPCore) (wsec : Option ℚ)
    (n_total : ℕ) : ℕ :=
  max 1 (min (pyRound ((wsec.getD cfg.window_sec) * cfg.fs)).toNat n_total)

/-- `list(range(start, stop, step))` for a positive step. -/
def range_step (start stop step : ℕ) : List ℕ :=
  (List.range ((stop - start + step - 1) / step)).map
    (fun j => start + step * j)

/-- The per-window loop of `DSPCore.compute_spectrogram`: per start a
PSD by the selected method (unknown name raises), the frequency-axis
consistency check (`RuntimeError` on mismatch, exact comparison in
rational arithmetic), the window-centre times.  In the degenerate case
where the configured analysis window is shorter than 4 samples the
multitaper branch gets `(None, None)` and the Python code fails on
`None` attribute access / stacking; that failure is modelled as an
error. -/
def spectrogram_loop (K : PsdKernels) (cfg : DSPCore) (m : String)
    (apply_window : Bool) (x : List ℚ) (win_samples : ℕ) :
    List ℕ → Option (List ℚ) →
      Except String (Option (List ℚ) × List ℚ × List (List ℚ))
  | [], freqs_acc => .ok (freqs_acc, [], [])
  | start :: more, freqs_acc =>
    let seg := (x.drop start).take win_samples
    match (if m = "periodogram" then
        Except.ok (K.periodogram_kernel apply_window seg)
      else if m = "multitaper" then
        match compute_psd_multitaper K cfg seg with
        | .error e => Except.error e
        | .ok (some r) => Except.ok r
        | .ok none => Except.error "multitaper analysis window shorter than 4 samples"
      else if m = "welch" then
        Except.ok (K.welch_kernel apply_window win_samples 0 seg)
      else Except.error ("Spectrogram method no soportado: " ++ m) :
        Except String (List ℚ × List ℚ)) with
    | .error e => .error e
    | .ok ft =>
      match (match freqs_acc with
        | none => Except.ok (some ft.1)
        | some fr =>
          if ft.1 = fr then Except.ok (some fr)
          else Except.error "Las frecuencias PSD varian entre ventanas" :
            Except String (Option (List ℚ))) with
      | .error e => .error e
      | .ok freqs2 =>
        match spectrogram_loop K cfg m apply_window x win_samples more
            freqs2 with
        | .error e => .error e
        | .ok rest =>
          let center_t := ((start : ℚ) + (win_samples : ℚ) / 2) / cfg.fs
          .ok (rest.1, center_t :: rest.2.1, ft.2 :: rest.2.2)

/-- `DSPCore.compute_spectrogram`: guards, window and step sizes, the
start indices, the per-window loop, optional log scaling
(`10 * log10(Sxx + 1e-12)` through the abstract `np.log10`). -/
def compute_spectrogram (K : PsdKernels) (cfg : DSPCore) (method : String)
    (window_sec step_sec : Option ℚ) (apply_window log_scale do_preprocess : Bool)
    (x : List ℚ) :
    Except String (Option (List ℚ × List ℚ × List (List ℚ))) :=
  let n_total := x.length
  if n_total < 4 then .ok none
  else
    let x := if do_preprocess then preprocess cfg true true x else x
    let win_samples := spectrogram_win_samples cfg window_sec n_total
    if win_samples < 4 then .ok none
    else
      let step_samples : ℕ := match step_sec with
        | none =>
          max 1 (pyRound ((win_samples : ℚ) * (1 - cfg.welch_overlap))).toNat
        | some s => max 1 (pyRound (s * cfg.fs)).toNat
      let starts := range_step 0 (n_total - win_samples + 1) step_samples
      if starts = [] then .ok none
      else
        match spectrogram_loop K cfg (py_lower method) apply_window x
            win_samples starts none with
        | .error e => .error e
        | .ok r =>
          let sxx := if log_scale then
              r.2.2.map (fun row => row.map
                (fun v => 10 * K.log10_fn (v + 1 / 10 ^ 12)))
            else r.2.2
          .ok (some (r.2.1, r.1.getD [], sxx))

/-- `True` exactly when the embedded Python call raised. -/
def is_raised {α : Type} : Except String α → Bool
  | .error _ => true
  | .ok _ => false

/-- Claim C6: on any single-channel input shorter than 4 samples,
`compute_psd` returns `(None, None)`, `compute_features` returns the
empty dict, `compute_spectral_stability` returns the NaN sentinel, and
none of the three raises. -/
theorem claim_C6_short_input_empty_results (K : PsdKernels) (cfg : DSPCore)
    (method : String) (nperseg noverlap : Option ℤ) (aw pp : Bool)
    (fmin fmax : ℚ) (x : List ℚ) (h : x.length < 4) :
    compute_psd K cfg method nperseg noverlap aw pp x = .ok none ∧
    compute_features K cfg method nperseg noverlap x = .ok none ∧
    compute_spectral_stability K cfg fmin fmax method x = .ok none := by
  refine ⟨?_, ?_, ?_⟩
  · have hlen : (if pp then preprocess cfg true true x else x).length < 4 := by
      by_cases hp : pp <;> simp [hp, preprocess_length, h]
    unfold compute_psd
    rw [if_pos hlen]
  · unfold compute_features
    rw [if_pos h]
  · unfold compute_spectral_stability
    rw [if_pos h]

/-- Witness for claim C6 at the 3-sample input `[1, 2, 3]` with trivial
kernels. -/
theorem claim_C6_witness :
    (([1, 2, 3] : List ℚ).length < 4) ∧
    (compute_psd ⟨fun _ _ => ([], []), fun _ _ _ _ => ([], []),
        fun _ => [], id, id⟩ dspDefault "multitaper" none none true true
        [1, 2, 3] = .ok none ∧
      compute_features ⟨fun _ _ => ([], []), fun _ _ _ _ => ([], []),
        fun _ => [], id, id⟩ dspDefault "multitaper" none none
        [1, 2, 3] = .ok none ∧
      compute_spectral_stability ⟨fun _ _ => ([], []),
        fun _ _ _ _ => ([], []), fun _ => [], id, id⟩ dspDefault
        (1 / 2) 40 "multitaper" [1, 2, 3] = .ok none) :=
  ⟨by simp, claim_C6_short_input_empty_results _ _ _ _ _ _ _ _ _ _
    (by simp)⟩

/-- On a start list that reaches the per-window computation, an
unrecognised method name makes the spectrogram loop raise. -/
theorem spectrogram_loop_unknown_method (K : PsdKernels) (cfg : DSPCore)
    (m : String) (aw : Bool) (x : List ℚ) (win s : ℕ) (more : List ℕ)
    (acc : Option (List ℚ))
    (h : m ∉ (["periodogram", "welch", "multitaper"] : List String)) :
    spectrogram_loop K cfg m aw x win (s :: more) acc =
      .error ("Spectrogram method no soportado: " ++ m) := by
  have h1 : ¬ m = "periodogram" := by simp at h; exact h.1
  have h2 : ¬ m = "welch" := by simp at h; exact h.2.1
  have h3 : ¬ m = "multitaper" := by simp at h; exact h.2.2
  rw [spectrogram_loop]
  rw [if_neg h1, if_neg h3, if_neg h2]

/-- A start-index list reaching the loop is never empty: index 0 is
always included once `win_samples ≤ n_total`. -/
theorem range_step_zero_ne_nil (stop step : ℕ) (hstop : 1 ≤ stop)
    (hstep : 1 ≤ step) :
    ∃ more, range_step 0 stop step = 0 :: more := by
  unfold range_step
  have hcount : 1 ≤ (stop - 0 + step - 1) / step := by
    rw [Nat.le_div_iff_mul_le (by omega)]
    omega
  obtain ⟨c, hc⟩ : ∃ c, (stop - 0 + step - 1) / step = c + 1 :=
    ⟨(stop - 0 + step - 1) / step - 1, by omega⟩
  rw [hc, List.range_succ_eq_map]
  refine ⟨(List.map Nat.succ (List.range c)).map (fun j => 0 + step * j), ?_⟩
  simp

/-- The `welch` arm of `compute_psd` never raises: both the short
sub-segment fallback and the kernel call return `ok`. -/
theorem is_raised_ite_ok {α : Type} (c : Prop) [inst : Decidable c]
    (a b : α) :
    is_raised (if c then Except.ok a else (Except.ok b : Except String α))
      = false := by
  split <;> rfl

/-- Claim C7 (amended): once an input is long enough to pass the
4-sample guard, and for the default window type (`"hann"`, under which
the periodogram/welch window construction never raises), `compute_psd`
raises exactly when the lowercased method name is unknown **or** the
method is `multitaper` and `scipy.signal.windows.dpss` rejects its
parameters — with the default `mt_nw = 2.5` that rejection fires for
every analysis window of 4 or 5 samples, so a recognised method can
raise inside the claim's stated scope (`claim_C7_counterexample`).
`compute_spectrogram` raises for an unknown name as soon as it reaches
the per-window PSD computation.  All errors propagate to the caller. -/
theorem claim_C7_unknown_method_raises_amended (K : PsdKernels)
    (cfg : DSPCore) (method : String) (nperseg noverlap : Option ℤ)
    (aw pp lg : Bool) (wsec ssec : Option ℚ) (x : List ℚ)
    (hwt : cfg.window_type = "hann") :
    (4 ≤ x.length →
      (is_raised (compute_psd K cfg method nperseg noverlap aw pp x) = true ↔
        (py_lower method ∉
            (["periodogram", "welch", "multitaper"] : List String) ∨
          (py_lower method = "multitaper" ∧
            4 ≤ min (window_samples cfg) x.length ∧
            dpss_raises (min (window_samples cfg) x.length) cfg.mt_nw
              (mt_tapers_of cfg) ≠ none)))) ∧
    (4 ≤ x.length → 4 ≤ spectrogram_win_samples cfg wsec x.length →
      py_lower method ∉ (["periodogram", "welch", "multitaper"] : List String) →
      is_raised (compute_spectrogram K cfg method wsec ssec aw lg pp x)
        = true) := by
  constructor
  · intro h4
    have hxl : (if pp then preprocess cfg true true x else x).length
        = x.length := by
      by_cases hp : pp <;> simp [hp, preprocess_length]
    have hlen : ¬ (if pp then preprocess cfg true true x else x).length < 4 := by
      omega
    unfold compute_psd
    rw [if_neg hlen]
    by_cases h1 : py_lower method = "periodogram"
    · simp [h1, is_raised]
    · rw [if_neg h1]
      by_cases h2 : py_lower method = "welch"
      · rw [if_pos h2]
        simp [is_raised_ite_ok, h2]
      · rw [if_neg h2]
        by_cases h3 : py_lower method = "multitaper"
        · rw [if_pos h3]
          unfold compute_psd_multitaper
          rw [hxl, if_neg (by omega)]
          by_cases hw : min (window_samples cfg) x.length < 4
          · rw [if_pos hw]
            simp [is_raised, h3]
            omega
          · rw [if_neg hw]
            cases hd : dpss_raises (min (window_samples cfg) x.length)
                cfg.mt_nw (mt_tapers_of cfg) with
            | none => simp [is_raised, h3, hd]
            | some e =>
              simp [is_raised, h3, hd]
              omega
        · rw [if_neg h3]
          simp [is_raised, h1, h2, h3]
  · intro h4 hwin hunknown
    unfold compute_spectrogram
    rw [if_neg (by omega)]
    rw [if_neg (by omega)]
    set step := (match ssec with
      | none =>
        max 1 (pyRound ((spectrogram_win_samples cfg wsec x.length : ℚ) *
          (1 - cfg.welch_overlap))).toNat
      | some s => max 1 (pyRound (s * cfg.fs)).toNat) with hstepdef
    have hstep1 : 1 ≤ step := by
      rw [hstepdef]
      cases ssec <;> simp
    have hwins : spectrogram_win_samples cfg wsec x.length ≤ x.length := by
      unfold spectrogram_win_samples
      omega
    obtain ⟨more, hmore⟩ := range_step_zero_ne_nil
      (x.length - spectrogram_win_samples cfg wsec x.length + 1) step
      (by omega) hstep1
    have hloop := spectrogram_loop_unknown_method K cfg (py_lower method) aw
      (if pp then preprocess cfg true true x else x)
      (spectrogram_win_samples cfg wsec x.length) 0 more none hunknown
    simp only [hmore, hloop]
    simp [is_raised]

/-- Kernels whose numeric content is irrelevant, for concrete witnesses. -/
def trivialKernels : PsdKernels :=
  ⟨fun _ _ => ([], []), fun _ _ _ _ => ([], []), fun _ => [], id, id⟩

/-- Counterexample to claim C7 as stated: `multitaper` — a recognised
method name, indeed the default — raises on the 4-sample input
`[1, 2, 3, 4]` under the default configuration, because
`windows.dpss(4, 2.5, Kmax=4, sym=False)` rejects `NW = 2.5 ≥ 4/2`.
So for inputs of length ≥ 4, `compute_psd` does not raise *only* for
unrecognised method names. -/
theorem claim_C7_counterexample :
    py_lower "multitaper" ∈
      (["periodogram", "welch", "multitaper"] : List String) ∧
    is_raised (compute_psd trivialKernels dspDefault "multitaper" none
      none true true [1, 2, 3, 4]) = true := by
  constructor
  · decide
  · have hlen : (preprocess dspDefault true true [1, 2, 3, 4]).length
        = 4 := by
      rw [preprocess_length]
      rfl
    have hws : window_samples dspDefault = 1000 := by
      norm_num [window_samples, dspDefault, pyRound]
      omega
    have htap : mt_tapers_of dspDefault = 4 := by
      norm_num [mt_tapers_of, dspDefault, pyTrunc]
      omega
    have hnw : dspDefault.mt_nw = 5 / 2 := rfl
    have hm : py_lower "multitaper" = "multitaper" := by decide
    have hne1 : ¬ ("multitaper" = "periodogram") := by decide
    have hne2 : ¬ ("multitaper" = "welch") := by decide
    norm_num [compute_psd, compute_psd_multitaper, hlen, hws, htap, hnw,
      hm, hne1, hne2, dpss_raises, is_raised]

/-- Witness for claim C7 (amended): the unknown method name `fourier`
on a 4-sample input under the default configuration, for both halves of
the amended theorem. -/
theorem claim_C7_witness :
    (dspDefault.window_type = "hann" ∧
      4 ≤ ([1, 2, 3, 4] : List ℚ).length ∧
      4 ≤ spectrogram_win_samples dspDefault none
        ([1, 2, 3, 4] : List ℚ).length ∧
      py_lower "fourier" ∉
        (["periodogram", "welch", "multitaper"] : List String)) ∧
    (is_raised (compute_psd trivialKernels dspDefault "fourier" none none
        true true [1, 2, 3, 4]) = true ↔
      (py_lower "fourier" ∉
          (["periodogram", "welch", "multitaper"] : List String) ∨
        (py_lower "fourier" = "multitaper" ∧
          4 ≤ min (window_samples dspDefault)
            ([1, 2, 3, 4] : List ℚ).length ∧
          dpss_raises (min (window_samples dspDefault)
              ([1, 2, 3, 4] : List ℚ).length) dspDefault.mt_nw
            (mt_tapers_of dspDefault) ≠ none))) ∧
    is_raised (compute_spectrogram trivialKernels dspDefault "fourier"
      none none true true true [1, 2, 3, 4]) = true := by
  have h4 : 4 ≤ ([1, 2, 3, 4] : List ℚ).length := by simp
  have hwin : 4 ≤ spectrogram_win_samples dspDefault none
      ([1, 2, 3, 4] : List ℚ).length := by
    norm_num [spectrogram_win_samples, dspDefault, pyRound]
  have hunk : py_lower "fourier" ∉
      (["periodogram", "welch", "multitaper"] : List String) := by decide
  exact ⟨⟨rfl, h4, hwin, hunk⟩,
    (claim_C7_unknown_method_raises_amended trivialKernels dspDefault
      "fourier" none none true true true none none [1, 2, 3, 4] rfl).1 h4,
    (claim_C7_unknown_method_raises_amended trivialKernels dspDefault
      "fourier" none none true true true none none [1, 2, 3, 4] rfl).2
      h4 hwin hunk⟩

theorem sum_values_map_mul (l : List (String × ℚ)) (c : ℚ) :
    sum_values (l.map (fun p => (p.1, p.2 * c))) = sum_values l * c := by
  induction l with
  | nil => simp [sum_values]
  | cons a t ih =>
    simp only [List.map_cons, sum_values, List.sum_cons] at *
    rw [ih]
    ring

/-- Claim C4: whenever `compute_features` returns a non-empty result and
the un-rescaled per-band trapezoidal powers sum to a positive value, the
returned `bandpower_abs` values sum exactly to the squared rms of the
preprocessed window (exact arithmetic). -/
theorem claim_C4_bandpower_rescaled_to_rms_sq (K : PsdKernels)
    (cfg : DSPCore) (method : String) (nperseg noverlap : Option ℤ)
    (x freqs pxx : List ℚ)
    (h1 : compute_psd K cfg method nperseg noverlap true false x =
      .ok (some (freqs, pxx)))
    (h2 : 0 < sum_values (compute_bandpower cfg freqs pxx false)) :
    ∀ f, compute_features K cfg method nperseg noverlap x =
      .ok (some f) → sum_values f.bandpower_abs = f.rms_sq := by
  intro f hf
  unfold compute_features at hf
  by_cases hlen : x.length < 4
  · rw [if_pos hlen] at hf
    simp at hf
  · rw [if_neg hlen, h1] at hf
    rcases f with ⟨frms, ffr, fpsd, fabs, frel, fpk, fa, fd, ft2, fg, fb⟩
    simp only [Except.ok.injEq, Option.some.injEq, EEGFeatures.mk.injEq] at hf
    rw [if_pos h2] at hf
    obtain ⟨hrms, -, -, habs, -⟩ := hf
    simp only
    rw [← habs, ← hrms, sum_values_map_mul]
    have hne : sum_values (compute_bandpower cfg freqs pxx false) ≠ 0 :=
      ne_of_gt h2
    field_simp

/-- A one-band configuration and a constant periodogram kernel for the
claim C4 witness. -/
def dspOneBand : DSPCore :=
  ⟨4, 1, "hann", 1 / 2, [("delta", 0, 4)], 5 / 2, none, 5, true, 1 / 100⟩

/-- A kernel returning the fixed spectrum `freqs = [1, 2]`,
`pxx = [1, 1]`. -/
def constKernels : PsdKernels :=
  ⟨fun _ _ => ([1, 2], [1, 1]), fun _ _ _ _ => ([], []), fun _ => [],
    id, id⟩

/-- Witness for claim C4 at the input `[1, 2, 3, 4]` with the constant
periodogram kernel. -/
theorem claim_C4_witness :
    (compute_psd constKernels dspOneBand "periodogram" none none true
        false [1, 2, 3, 4] = .ok (some ([1, 2], [1, 1])) ∧
      0 < sum_values (compute_bandpower dspOneBand [1, 2] [1, 1] false)) ∧
    (∀ f, compute_features constKernels dspOneBand "periodogram" none
        none [1, 2, 3, 4] = .ok (some f) →
      sum_values f.bandpower_abs = f.rms_sq) := by
  have h1 : compute_psd constKernels dspOneBand "periodogram" none none
      true false [1, 2, 3, 4] = .ok (some ([1, 2], [1, 1])) := by rfl
  have h2 : 0 < sum_values (compute_bandpower dspOneBand [1, 2] [1, 1]
      false) := by
    norm_num [compute_bandpower, trapezoid, sum_values, dspOneBand]
  exact ⟨⟨h1, h2⟩, claim_C4_bandpower_rescaled_to_rms_sq constKernels
    dspOneBand "periodogram" none none [1, 2, 3, 4] [1, 2] [1, 1] h1 h2⟩

/-! Part 3: `music_segment.py`, `music_bar.py`, `music_note.py`.
MIDI pitches are `ℤ`; Python `%` on a positive modulus agrees with
`Int.emod`.  Float comparisons stay exact in `ℚ` (e.g. `0.33` is
`33/100`). -/

/-- `music_segment.ScaleConfig`. -/
structure ScaleConfig where
  root_midi : ℤ
  name : String
  intervals : List ℤ
deriving DecidableEq, Repr

/-- `ScaleConfig.contains`: membership of `(midi - root) % 12` in the
interval list. -/
def scale_contains (sc : ScaleConfig) (midi_note : ℤ) : Bool :=
  decide (((midi_note - sc.root_midi) % 12) ∈ sc.intervals)

/-- `music_segment.RhythmCadence`. -/
inductive RhythmCadence
  | low
  | medium
  | high
deriving DecidableEq, Repr

/-- The entries of the EEG feature dict that the generators read
(`bandpower_rel["alpha"]`, `bandpower_rel["beta"]`, `rms`); a missing
key is `none`. -/
structure EEGFeatSnapshot where
  bandpower_rel_alpha : Option ℚ
  bandpower_rel_beta : Option ℚ
  rms : Option ℚ
deriving DecidableEq, Repr

/-- `music_segment.MusicSegment`.  (The source field `register_hint`
is spelled `registerHint`: its Python name is a Mathlib command.) -/
structure MusicSegment where
  segment : Segment
  main_note_midi : ℤ
  scale : ScaleConfig
  rhythm_cadence : RhythmCadence
  registerHint : ℚ
  features : EEGFeatSnapshot
deriving DecidableEq, Repr

/-- `music_bar.Bar`. -/
structure Bar where
  index : ℕ
  t_start : ℚ
  t_end : ℚ
  chord_root_midi : ℤ
  chord_pitches : List ℤ
  note_positions : List ℤ
  stability : ℚ
  amplitude_slots : List ℚ
deriving DecidableEq, Repr

/-- Configuration of `music_bar.BarGenerator.__init__` (defaults as in
the source). -/
structure BarGenerator where
  beats_per_bar : ℕ := 4
  slots_per_beat : ℕ := 4
  low_notes_per_bar : ℕ := 3
  medium_notes_per_bar : ℕ := 6
  high_notes_per_bar : ℕ := 16
  amplitude_threshold_rel : ℚ := 1 / 2
deriving DecidableEq, Repr

/-- `self.n_slots = beats_per_bar * slots_per_beat`. -/
def n_slots (g : BarGenerator) : ℕ := g.beats_per_bar * g.slots_per_beat

/-- `BarGenerator._build_diatonic_triad`: degree `d` (mod the scale
length) takes interval indices `d, d+2, d+4` mod the scale length, each
offset from `root_midi + 12 * base_octave_offset`.  (Wrapped indices are
*not* octave-corrected: in C major degree V yields `[67, 71, 62]`.) -/
def build_diatonic_triad (scale : ScaleConfig) (degree_idx : ℤ)
    (base_octave_offset : ℤ) : ℤ × List ℤ :=
  let intervals := scale.intervals
  let n_degrees := intervals.length
  let d : ℕ := (degree_idx % (n_degrees : ℤ)).toNat
  let root_interval := intervals.getD d 0
  let third_interval := intervals.getD ((d + 2) % n_degrees) 0
  let fifth_interval := intervals.getD ((d + 4) % n_degrees) 0
  let root_midi := scale.root_midi + 12 * base_octave_offset + root_interval
  let third_midi := scale.root_midi + 12 * base_octave_offset + third_interval
  let fifth_midi := scale.root_midi + 12 * base_octave_offset + fifth_interval
  (root_midi, [root_midi, third_midi, fifth_midi])

/-- `BarGenerator._choose_chord_degree` (not used by `generate_bars`,
which calls `_map_stability_to_degree_idx` below; the two disagree). -/
def choose_chord_degree (stability : ℚ) : ℤ :=
  if stability ≤ 33 / 100 then 0
  else if stability ≤ 66 / 100 then 3
  else 4

/-- `BarGenerator._target_notes_for_cadence`. -/
def target_notes_for_cadence (g : BarGenerator) : RhythmCadence → ℕ
  | .low => g.low_notes_per_bar
  | .high => g.high_notes_per_bar
  | .medium => g.medium_notes_per_bar

/-- The normalisation step of `BarGenerator._choose_note_positions`:
divide by `np.max(np.abs(amps))` when that maximum is positive. -/
def normalize_amps (amps : List ℚ) : List ℚ :=
  let max_amp := if amps.length > 0 then pyListMax (amps.map (fun v => |v|))
    else 0
  if 0 < max_amp then amps.map (fun v => v / max_amp) else amps

/-- The candidate step of `BarGenerator._choose_note_positions`: slots
whose normalised amplitude is at or above the relative threshold; when
none qualifies, all slots sorted by amplitude descending (numpy's
`argsort` leaves tie order unspecified; the tie order produced by the
strict-relation insertion sort below is one of its admissible
outcomes). -/
def candidate_slots (g : BarGenerator) (amps_norm : List ℚ) : List ℕ :=
  let candidate_idxs := (List.range (n_slots g)).filter
    (fun i => decide (g.amplitude_threshold_rel ≤ amps_norm.getD i 0))
  if candidate_idxs = [] then
    List.insertionSort (fun i j => amps_norm.getD j 0 < amps_norm.getD i 0)
      (List.range (n_slots g))
  else candidate_idxs

/-- The top-K step of `BarGenerator._choose_note_positions`: candidates
sorted by amplitude descending, truncated to the clamped target count.
Python's `sorted(..., reverse=True)` is stable; the strict-relation
insertion sort used here reverses equal-amplitude candidates, which can
change only the tie order of the selected set, never its size. -/
def active_slots (g : BarGenerator) (cadence : RhythmCadence)
    (amps_norm : List ℚ) : List ℕ :=
  let target_notes := max 1 (min (target_notes_for_cadence g cadence)
    (n_slots g))
  (List.insertionSort (fun i j => amps_norm.getD j 0 < amps_norm.getD i 0)
    (candidate_slots g amps_norm)).take target_notes

/-- `BarGenerator._choose_note_positions`: wrong-length input raises;
otherwise note-on at exactly the active slots. -/
def choose_note_positions (g : BarGenerator) (cadence : RhythmCadence)
    (amplitude_slots : List ℚ) : Except String (List ℤ) :=
  let amps := amplitude_slots
  if amps.length ≠ n_slots g then
    .error "amplitude_slots debe tener longitud n_slots"
  else
    let amps_norm := normalize_amps amps
    let active := active_slots g cadence amps_norm
    .ok ((List.range (n_slots g)).map
      (fun i => if active.contains i then (1 : ℤ) else 0))

/-- `BarGenerator._map_stability_to_degree_idx`: degree V for low
stability, IV for medium, I for high (the inverse of
`_choose_chord_degree`), clamped to the scale; scales with fewer than 5
degrees always get degree 0.  The `isnan`/`isinf` guard of the source
has no rational counterpart. -/
def map_stability_to_degree_idx (stability : ℚ) (n_degrees : ℕ) : ℕ :=
  let stability := max 0 (min 1 stability)
  if n_degrees < 5 then 0
  else
    let degree_idx : ℕ :=
      if stability < 33 / 100 then 4
      else if stability < 66 / 100 ∧ 33 / 100 ≤ stability then 3
      else 0
    min (n_degrees - 1) degree_idx

/-- The per-bar loop of `BarGenerator.generate_bars`, over the zipped
stability and amplitude lists, carrying the bar index. -/
def generate_bars_loop (g : BarGenerator) (segment : MusicSegment)
    (bar_duration : ℚ) (n_degrees : ℕ) (base_octave_offset : ℤ) :
    ℕ → List (ℚ × List ℚ) → Except String (List Bar)
  | _, [] => .ok []
  | i, (stab, amp_slots) :: rest =>
    let degree_idx := map_stability_to_degree_idx stab n_degrees
    let rt := build_diatonic_triad segment.scale (degree_idx : ℤ)
      base_octave_offset
    match choose_note_positions g segment.rhythm_cadence amp_slots with
    | .error e => .error e
    | .ok note_positions =>
      match generate_bars_loop g segment bar_duration n_degrees
          base_octave_offset (i + 1) rest with
      | .error e => .error e
      | .ok bars =>
        let bar_t_start := segment.segment.t_start + (i : ℚ) * bar_duration
        let bar_t_end := bar_t_start + bar_duration
        .ok (⟨i, bar_t_start, bar_t_end, rt.1, rt.2, note_positions, stab,
          amp_slots⟩ :: bars)

/-- `BarGenerator.generate_bars`: empty input yields `[]`; mismatched
list lengths raise; otherwise one `Bar` per entry with equal durations
inside the segment (the debug print of the source has no effect). -/
def generate_bars (g : BarGenerator) (segment : MusicSegment)
    (stability_per_bar : List ℚ) (amplitude_slots_per_bar : List (List ℚ))
    (base_octave_offset : ℤ) : Except String (List Bar) :=
  let n_bars := stability_per_bar.length
  if n_bars = 0 then .ok []
  else if amplitude_slots_per_bar.length ≠ n_bars then
    .error "stability_per_bar y amplitude_slots_per_bar deben tener la misma longitud"
  else
    let total_duration := segment.segment.t_end - segment.segment.t_start
    let bar_duration := total_duration / (n_bars : ℚ)
    let n_degrees := segment.scale.intervals.length
    generate_bars_loop g segment bar_duration n_degrees base_octave_offset
      0 (stability_per_bar.zip amplitude_slots_per_bar)

/-- The `BarGenerator()` default configuration. -/
def barGenDefault : BarGenerator := ⟨4, 4, 3, 6, 16, 1 / 2⟩

/-- C major rooted at middle C, `MAJOR_INTERVALS = [0,2,4,5,7,9,11]`. -/
def scaleCmajor : ScaleConfig := ⟨60, "C_major", [0, 2, 4, 5, 7, 9, 11]⟩

/-- A feature dict with none of the keys the generators read. -/
def noFeatures : EEGFeatSnapshot := ⟨none, none, none⟩

/-- The claim C1 scenario: an 8-second C-major segment. -/
def musegC1 : MusicSegment :=
  ⟨⟨0, 2000, 0, 8⟩, 67, scaleCmajor, .medium, 1 / 2, noFeatures⟩

/-- A 16-slot amplitude envelope with a single spike at slot 0. -/
def ampSpike : List ℚ := [1, 0, 0, 0, 0, 0, 0, 0, 0, 0, 0, 0, 0, 0, 0, 0]

set_option maxRecDepth 8000 in
theorem choose_note_positions_spike :
    choose_note_positions barGenDefault .medium ampSpike =
      .ok [1, 0, 0, 0, 0, 0, 0, 0, 0, 0, 0, 0, 0, 0, 0, 0] := by
  have hr : List.range 16 = [0, 1, 2, 3, 4, 5, 6, 7, 8, 9, 10, 11, 12, 13,
    14, 15] := by decide
  norm_num [choose_note_positions, active_slots, candidate_slots,
    barGenDefault, n_slots, ampSpike, normalize_amps, pyListMax,
    target_notes_for_cadence, hr, List.filter, List.insertionSort,
    List.orderedInsert]

/-- What `generate_bars` actually produces in the claim C1 scenario:
stability `0.1` maps to degree V with the wrapped triad `[67, 71, 62]`,
stability `0.9` to degree I with `[60, 64, 67]`. -/
theorem generate_bars_C1_eval :
    (generate_bars barGenDefault musegC1 [1 / 10, 9 / 10]
        [ampSpike, ampSpike] 0).map (List.map Bar.chord_pitches) =
      .ok [[67, 71, 62], [60, 64, 67]] := by
  have hdegL : map_stability_to_degree_idx (1 / 10) 7 = 4 := by
    norm_num [map_stability_to_degree_idx]
  have hdegH : map_stability_to_degree_idx (9 / 10) 7 = 0 := by
    norm_num [map_stability_to_degree_idx]
  have hdeg7 : scaleCmajor.intervals.length = 7 := by decide
  have htriadV : build_diatonic_triad scaleCmajor 4 0 = (67, [67, 71, 62]) := by
    decide
  have htriadI : build_diatonic_triad scaleCmajor 0 0 = (60, [60, 64, 67]) := by
    decide
  norm_num [generate_bars, generate_bars_loop, musegC1, hdeg7, hdegL, hdegH,
    htriadV, htriadI, choose_note_positions_spike, Except.map]

/-- Counterexample to claim C1 as stated: in the claimed scenario
(root 60, major intervals, `base_octave_offset = 0`) the bar with
stability `0.1` gets chord pitches `[67, 71, 62]`, not `[60, 64, 67]`,
and the bar with stability `0.9` gets `[60, 64, 67]`, not `[67, 71, 74]`:
`generate_bars` maps low stability to degree V and high stability to
degree I, and the wrapped fifth of degree V stays an octave low. -/
theorem claim_C1_counterexample :
    (generate_bars barGenDefault musegC1 [1 / 10, 9 / 10]
        [ampSpike, ampSpike] 0).map (List.map Bar.chord_pitches) =
      .ok [[67, 71, 62], [60, 64, 67]] ∧
    ¬ ((generate_bars barGenDefault musegC1 [1 / 10, 9 / 10]
        [ampSpike, ampSpike] 0).map (List.map Bar.chord_pitches) =
      .ok [[60, 64, 67], [67, 71, 74]]) := by
  refine ⟨generate_bars_C1_eval, ?_⟩
  rw [generate_bars_C1_eval]
  simp

/-- Claim C1 (amended): in the claimed scenario `generate_bars` uses
`_map_stability_to_degree_idx`, which sends stability `0.1` to degree V
(index 4) and stability `0.9` to degree I (index 0), and the degree V
triad wraps without octave correction, so the produced chord pitch lists
are `[67, 71, 62]` and `[60, 64, 67]` respectively. -/
theorem claim_C1_chord_selection_amended :
    map_stability_to_degree_idx (1 / 10) 7 = 4 ∧
    map_stability_to_degree_idx (9 / 10) 7 = 0 ∧
    (generate_bars barGenDefault musegC1 [1 / 10, 9 / 10]
        [ampSpike, ampSpike] 0).map (List.map Bar.chord_pitches) =
      .ok [[67, 71, 62], [60, 64, 67]] :=
  ⟨by norm_num [map_stability_to_degree_idx],
    by norm_num [map_stability_to_degree_idx],
    generate_bars_C1_eval⟩

theorem count_marks (n : ℕ) (active : List ℕ) :
    (((List.range n).map
      (fun i => if active.contains i then (1 : ℤ) else 0)).count 1)
      = ((List.range n).filter (fun i => active.contains i)).length := by
  rw [List.count, List.countP_map]
  rw [show ((fun x => x == (1 : ℤ)) ∘
      (fun i => if active.contains i then (1 : ℤ) else 0)) =
      (fun i => active.contains i) from ?_, List.countP_eq_length_filter]
  funext i
  by_cases h : i ∈ active <;> simp [h]

theorem length_filter_mem :
    ∀ (n : ℕ) (active : List ℕ), active.Nodup → (∀ a ∈ active, a < n) →
      ((List.range n).filter (fun i => active.contains i)).length
        = active.length := by
  intro n
  induction n with
  | zero =>
    intro active hnd hlt
    cases active with
    | nil => simp
    | cons a t => exact absurd (hlt a (by simp)) (by omega)
  | succ n ih =>
    intro active hnd hlt
    rw [List.range_succ, List.filter_append]
    simp only [List.length_append]
    have hfirst : (List.range n).filter (fun i => active.contains i) =
        (List.range n).filter (fun i => (active.erase n).contains i) := by
      apply List.filter_congr
      intro i hi
      have hi_lt : i < n := List.mem_range.mp hi
      by_cases hmem : i ∈ active
      · have hmem2 : i ∈ active.erase n :=
          (List.Nodup.mem_erase_iff hnd).mpr ⟨by omega, hmem⟩
        simp [hmem, hmem2]
      · have hmem2 : i ∉ active.erase n :=
          fun hh => hmem (List.mem_of_mem_erase hh)
        simp [hmem, hmem2]
    have hbounds : ∀ a ∈ active.erase n, a < n := by
      intro a ha
      have h1 := List.mem_of_mem_erase ha
      have h2 := (List.Nodup.mem_erase_iff hnd).mp ha
      have := hlt a h1
      omega
    rw [hfirst, ih (active.erase n) (hnd.erase n) hbounds]
    by_cases hn : n ∈ active
    · rw [List.length_erase_of_mem hn]
      have hpos : 0 < active.length := List.length_pos.mpr
        (by intro he; rw [he] at hn; simp at hn)
      simp [hn]
      omega
    · rw [List.erase_of_not_mem hn]
      simp [hn]

theorem candidate_slots_nodup_lt (g : BarGenerator) (amps_norm : List ℚ) :
    (candidate_slots g amps_norm).Nodup ∧
    ∀ a ∈ candidate_slots g amps_norm, a < n_slots g := by
  simp only [candidate_slots]
  split
  · have hperm := List.perm_insertionSort
      (fun i j => amps_norm.getD j 0 < amps_norm.getD i 0)
      (List.range (n_slots g))
    constructor
    · exact (List.Perm.nodup_iff hperm).mpr (List.nodup_range _)
    · intro a ha
      exact List.mem_range.mp (hperm.mem_iff.mp ha)
  · constructor
    · exact (List.nodup_range _).filter _
    · intro a ha
      exact List.mem_range.mp (List.mem_of_mem_filter ha)

theorem active_slots_nodup_lt (g : BarGenerator) (cadence : RhythmCadence)
    (amps_norm : List ℚ) :
    (active_slots g cadence amps_norm).Nodup ∧
    ∀ a ∈ active_slots g cadence amps_norm, a < n_slots g := by
  obtain ⟨hnd, hlt⟩ := candidate_slots_nodup_lt g amps_norm
  have hperm := List.perm_insertionSort
    (fun i j => amps_norm.getD j 0 < amps_norm.getD i 0)
    (candidate_slots g amps_norm)
  have hsortnd : (List.insertionSort
      (fun i j => amps_norm.getD j 0 < amps_norm.getD i 0)
      (candidate_slots g amps_norm)).Nodup :=
    (List.Perm.nodup_iff hperm).mpr hnd
  constructor
  · exact hsortnd.sublist (List.take_sublist _ _)
  · intro a ha
    exact hlt a (hperm.mem_iff.mp (List.mem_of_mem_take ha))

theorem active_slots_length (g : BarGenerator) (cadence : RhythmCadence)
    (amps_norm : List ℚ) :
    (active_slots g cadence amps_norm).length =
      min (max 1 (min (target_notes_for_cadence g cadence) (n_slots g)))
        (candidate_slots g amps_norm).length := by
  unfold active_slots
  rw [List.length_take]
  congr 1
  exact (List.perm_insertionSort _ _).length_eq

/-- The note-on count of `choose_note_positions` equals the number of
active slots. -/
theorem choose_note_positions_count (g : BarGenerator)
    (cadence : RhythmCadence) (amps : List ℚ) (hlen : amps.length = n_slots g)
    (pos : List ℤ) (hpos : choose_note_positions g cadence amps = .ok pos) :
    pos.count 1 =
      min (max 1 (min (target_notes_for_cadence g cadence) (n_slots g)))
        (candidate_slots g (normalize_amps amps)).length := by
  unfold choose_note_positions at hpos
  rw [if_neg (by omega)] at hpos
  have hpos2 : pos = (List.range (n_slots g)).map
      (fun i => if (active_slots g cadence (normalize_amps amps)).contains i
        then (1 : ℤ) else 0) := by
    exact (Except.ok.inj hpos).symm
  obtain ⟨hnd, hlt⟩ := active_slots_nodup_lt g cadence (normalize_amps amps)
  rw [hpos2, count_marks, length_filter_mem (n_slots g) _ hnd hlt,
    active_slots_length]

/-- Claim C8: with the default `BarGenerator`, every 16-slot amplitude
vector yields between 1 and 16 active slots; and when the normalised
amplitudes are pairwise distinct and at least `target_for_cadence` slots
lie at or above the relative threshold `0.5`, the active count is
exactly `min(target_for_cadence, 16)`. -/
theorem claim_C8_active_slot_count (cadence : RhythmCadence)
    (amps : List ℚ) (hlen : amps.length = 16) :
    ∀ pos, choose_note_positions barGenDefault cadence amps = .ok pos →
      (1 ≤ pos.count 1 ∧ pos.count 1 ≤ 16) ∧
      ((normalize_amps amps).Pairwise (fun a b => a ≠ b) →
        target_notes_for_cadence barGenDefault cadence ≤
          ((List.range 16).filter (fun i =>
            decide ((1 : ℚ) / 2 ≤ (normalize_amps amps).getD i 0))).length →
        pos.count 1 =
          min (target_notes_for_cadence barGenDefault cadence) 16) := by
  intro pos hpos
  have hns : n_slots barGenDefault = 16 := rfl
  have hcount := choose_note_positions_count barGenDefault cadence amps
    (by rw [hns, hlen]) pos hpos
  rw [hns] at hcount
  have htgt : 1 ≤ target_notes_for_cadence barGenDefault cadence ∧
      target_notes_for_cadence barGenDefault cadence ≤ 16 := by
    rcases cadence <;> exact ⟨by decide, by decide⟩
  constructor
  · constructor
    · rw [hcount]
      have hclen : 1 ≤ (candidate_slots barGenDefault
          (normalize_amps amps)).length := by
        simp only [candidate_slots, hns]
        split
        · rw [(List.perm_insertionSort _ _).length_eq]
          simp
        · rename_i hne
          have := List.length_pos.mpr hne
          omega
      omega
    · rw [hcount]
      omega
  · intro hdist henough
    have hfilter_eq : (List.range 16).filter (fun i =>
        decide ((1 : ℚ) / 2 ≤ (normalize_amps amps).getD i 0)) =
        (List.range (n_slots barGenDefault)).filter (fun i =>
          decide (barGenDefault.amplitude_threshold_rel ≤
            (normalize_amps amps).getD i 0)) := rfl
    rw [hfilter_eq] at henough
    have hne : (List.range (n_slots barGenDefault)).filter (fun i =>
        decide (barGenDefault.amplitude_threshold_rel ≤
          (normalize_amps amps).getD i 0)) ≠ [] := by
      intro he
      rw [he] at henough
      simp at henough
      omega
    have hcand : candidate_slots barGenDefault (normalize_amps amps) =
        (List.range (n_slots barGenDefault)).filter (fun i =>
          decide (barGenDefault.amplitude_threshold_rel ≤
            (normalize_amps amps).getD i 0)) := by
      simp only [candidate_slots]
      rw [if_neg hne]
    rw [hcount, hcand]
    omega

theorem foldl_max_le (m : ℚ) : ∀ (l : List ℚ) (b : ℚ), (∀ x ∈ l, x ≤ m) →
    b ≤ m → l.foldl max b ≤ m := by
  intro l
  induction l with
  | nil => intro b _ hb; simpa using hb
  | cons a t ih =>
    intro b hx hb
    rw [List.foldl_cons]
    exact ih (max b a) (fun x hm => hx x (by simp [hm]))
      (max_le hb (hx a (by simp)))

theorem le_foldl_max : ∀ (l : List ℚ) (b : ℚ),
    b ≤ l.foldl max b ∧ ∀ x ∈ l, x ≤ l.foldl max b := by
  intro l
  induction l with
  | nil => intro b; simp
  | cons a t ih =>
    intro b
    rw [List.foldl_cons]
    obtain ⟨h1, h2⟩ := ih (max b a)
    refine ⟨le_trans (le_max_left b a) h1, ?_⟩
    intro x hx
    rcases List.mem_cons.mp hx with rfl | hm
    · exact le_trans (le_max_right b x) h1
    · exact h2 x hm

/-- `np.max` of a list is any member that bounds the list. -/
theorem pyListMax_eq (l : List ℚ) (m : ℚ) (hmem : m ∈ l)
    (hub : ∀ x ∈ l, x ≤ m) : pyListMax l = m := by
  cases l with
  | nil => simp at hmem
  | cons a t =>
    rw [pyListMax]
    refine le_antisymm (foldl_max_le m t a (fun x hx => hub x (by simp [hx]))
      (hub a (by simp))) ?_
    obtain ⟨h1, h2⟩ := le_foldl_max t a
    rcases List.mem_cons.mp hmem with rfl | hm
    · exact h1
    · exact h2 m hm

/-- The amplitude profile of slot `k` in `ampDesc`. -/
def ampDescF (k : ℕ) : ℚ := (16 - (k : ℚ)) / 16

/-- Strictly decreasing 16-slot amplitudes `(16-k)/16`. -/
def ampDesc : List ℚ :=
  [1, 15/16, 7/8, 13/16, 3/4, 11/16, 5/8, 9/16, 1/2, 7/16, 3/8, 5/16,
    1/4, 3/16, 1/8, 1/16]

/-- Witness for claim C8: strictly decreasing amplitudes, medium cadence
(target 6, nine slots at or above the threshold). -/
theorem claim_C8_witness :
    (ampDesc.length = 16 ∧
      (normalize_amps ampDesc).Pairwise (fun a b => a ≠ b) ∧
      target_notes_for_cadence barGenDefault .medium ≤
        ((List.range 16).filter (fun i => decide ((1 : ℚ) / 2 ≤
          (normalize_amps ampDesc).getD i 0))).length) ∧
    (∀ pos, choose_note_positions barGenDefault .medium ampDesc = .ok pos →
      (1 ≤ pos.count 1 ∧ pos.count 1 ≤ 16)) := by
  have habs : (ampDesc.map (fun v => |v|)) = ampDesc := by
    norm_num [ampDesc]
  have hmax : pyListMax ampDesc = 1 := by
    apply pyListMax_eq
    · norm_num [ampDesc]
    · norm_num [ampDesc, List.forall_mem_cons]
  have hlen : ampDesc.length = 16 := by norm_num [ampDesc]
  have hnorm : normalize_amps ampDesc = ampDesc := by
    simp only [normalize_amps, habs, hmax, hlen]
    norm_num
  have hmap : ampDesc = (List.range 16).map ampDescF := by
    have hr : List.range 16 = [0, 1, 2, 3, 4, 5, 6, 7, 8, 9, 10, 11, 12,
      13, 14, 15] := by decide
    norm_num [hr, ampDesc, ampDescF]
  have hdist : (normalize_amps ampDesc).Pairwise (fun a b => a ≠ b) := by
    rw [hnorm, hmap, List.pairwise_map]
    apply List.Pairwise.imp ?_ (List.pairwise_lt_range 16)
    intro a b hab
    have hcast : (16 : ℚ) - (b : ℚ) < (16 : ℚ) - (a : ℚ) := by
      have : (a : ℚ) < (b : ℚ) := by exact_mod_cast hab
      linarith
    have h16 : (0 : ℚ) < 16 := by norm_num
    have hlt : ampDescF b < ampDescF a := by
      unfold ampDescF
      rw [div_lt_div_iff_of_pos_right h16]
      exact hcast
    exact (ne_of_lt hlt).symm
  have henough : target_notes_for_cadence barGenDefault .medium ≤
      ((List.range 16).filter (fun i => decide ((1 : ℚ) / 2 ≤
        (normalize_amps ampDesc).getD i 0))).length := by
    rw [hnorm]
    have hr : List.range 16 = [0, 1, 2, 3, 4, 5, 6, 7, 8, 9, 10, 11, 12,
      13, 14, 15] := by decide
    norm_num [hr, ampDesc, List.filter, target_notes_for_cadence,
      barGenDefault]
  exact ⟨⟨hlen, hdist, henough⟩, fun pos hpos =>
    (claim_C8_active_slot_count .medium ampDesc hlen pos hpos).1⟩

/-- `music_note.NoteEvent`. -/
structure NoteEvent where
  t_start : ℚ
  t_end : ℚ
  pitch_midi : ℤ
  velocity : ℤ
  channel : ℤ
  program : ℤ
deriving DecidableEq, Repr

/-- Configuration of `music_note.NoteGenerator.__init__` (defaults as in
the source). -/
structure NoteGenerator where
  beats_per_bar : ℕ := 4
  slots_per_beat : ℕ := 4
  max_interval_semitones : ℤ := 12
  base_velocity_downbeat : ℤ := 105
  base_velocity_beat : ℤ := 90
  base_velocity_offbeat : ℤ := 75
  velocity_rms_scaling : Bool := true
  min_velocity : ℤ := 30
  max_velocity : ℤ := 120
  default_channel : ℤ := 0
  default_program : ℤ := 0
deriving DecidableEq, Repr

/-- `self.n_slots` of the note generator. -/
def note_n_slots (g : NoteGenerator) : ℕ := g.beats_per_bar * g.slots_per_beat

/-- `NoteGenerator._compute_register_center`:
`clamp(round(main_note + (register_hint - 0.5) * 12), 36, 96)`. -/
def compute_register_center (segment : MusicSegment) : ℤ :=
  let base := segment.main_note_midi
  let offset : ℚ := (segment.registerHint - 1 / 2) * 12
  let center := pyRound ((base : ℚ) + offset)
  max 36 (min 96 center)

/-- `NoteGenerator._build_scale_pitches_around`: the scale members of
`[center - radius, center + radius]`. -/
def build_scale_pitches_around (scale : ScaleConfig) (center_pitch : ℤ)
    (radius_semitones : ℕ) : List ℤ :=
  ((List.range (2 * radius_semitones + 1)).map
    (fun (k : ℕ) => center_pitch - (radius_semitones : ℤ) + (k : ℤ))).filter
    (fun midi => scale_contains scale midi)

/-- `NoteGenerator._split_chord_nonchord`: split the scale pitches by
pitch class against the chord, falling back to the chord pitches
themselves when no scale pitch matches. -/
def split_chord_nonchord (scale_pitches chord_pitches : List ℤ) :
    List ℤ × List ℤ :=
  let chord_classes := chord_pitches.map (fun p => p % 12)
  let chord_tones := scale_pitches.filter (fun p => (p % 12) ∈ chord_classes)
  let non_chord_tones := scale_pitches.filter
    (fun p => ¬ ((p % 12) ∈ chord_classes))
  let chord_tones2 := if chord_tones = [] then chord_pitches else chord_tones
  (chord_tones2, non_chord_tones)

/-- `NoteGenerator._compute_eeg_tension_from_features`:
`beta / (alpha + beta)` clamped to `[0, 1]`, `0.5` when undefined. -/
def compute_eeg_tension_from_features (segment : MusicSegment) : ℚ :=
  let alpha_rel := segment.features.bandpower_rel_alpha.getD 0
  let beta_rel := segment.features.bandpower_rel_beta.getD 0
  let total := alpha_rel + beta_rel
  if total ≤ 0 then 1 / 2
  else max 0 (min 1 (beta_rel / total))

/-- Python `min(candidates, key=cost)`: the first element of least cost. -/
def py_min_by (key : ℤ → ℚ) : List ℤ → Option ℤ
  | [] => none
  | a :: t => some (t.foldl (fun best p => if key p < key best then p
      else best) a)

/-- `NoteGenerator._choose_pitch_candidate`: chord tones on downbeats,
non-chord tones (falling back to chord tones) elsewhere; `main_note`
when no candidate exists; otherwise the candidate minimising the
melodic/tension cost (`0.5/0.5` against register centre and tension
target for the first note, `0.7/0.3` against the previous pitch and the
tension target afterwards). -/
def choose_pitch_candidate (g : NoteGenerator)
    (chord_tones non_chord_tones : List ℤ) (slot_idx : ℕ)
    (prev_pitch : Option ℤ) (segment : MusicSegment) : ℤ :=
  let is_downbeat := slot_idx % g.slots_per_beat = 0
  let candidates := if is_downbeat then chord_tones
    else if non_chord_tones ≠ [] then non_chord_tones else chord_tones
  if candidates = [] then segment.main_note_midi
  else
    let center := compute_register_center segment
    let tension := compute_eeg_tension_from_features segment
    let pitch_target : ℚ := (center : ℚ) + (tension - 1 / 2) * 14
    match prev_pitch with
    | none =>
      (py_min_by (fun p => 1 / 2 * |(p : ℚ) - (center : ℚ)| +
        1 / 2 * |(p : ℚ) - pitch_target|) candidates).getD
        segment.main_note_midi
    | some pp =>
      (py_min_by (fun p => 7 / 10 * |(p : ℚ) - (pp : ℚ)| +
        3 / 10 * |(p : ℚ) - pitch_target|) candidates).getD
        segment.main_note_midi

/-- `NoteGenerator._select_chord_voices`: up to `max_voices` chord tones
nearest the register centre, returned low to high.  Python's `sorted`
is stable; the strict-relation insertion sort used here reverses chord
tones equidistant from the centre, which can change only which of two
tied tones is taken when the cut falls between them. -/
def select_chord_voices (chord_tones : List ℤ) (center_pitch : ℤ)
    (max_voices : ℕ) : List ℤ :=
  if chord_tones = [] then []
  else
    let sorted_by_center := List.insertionSort
      (fun p q : ℤ => |p - center_pitch| < |q - center_pitch|) chord_tones
    let voices := sorted_by_center.take max_voices
    List.insertionSort (fun p q : ℤ => p < q) voices

/-- The `while diff > max_interval: candidate -= 12` loop of
`NoteGenerator._apply_interval_constraint`, with explicit fuel; at the
fuel used below (`diff - max_interval` when positive) it runs to
completion exactly like the Python loop. -/
def oct_down_loop (max_int prev_pitch : ℤ) : ℕ → ℤ → ℤ
  | 0, c => c
  | fuel + 1, c =>
    if max_int < c - prev_pitch then oct_down_loop max_int prev_pitch fuel
      (c - 12)
    else c

/-- The `while diff < -max_interval: candidate += 12` loop. -/
def oct_up_loop (max_int prev_pitch : ℤ) : ℕ → ℤ → ℤ
  | 0, c => c
  | fuel + 1, c =>
    if c - prev_pitch < -max_int then oct_up_loop max_int prev_pitch fuel
      (c + 12)
    else c

/-- Both octave-shift loops of `_apply_interval_constraint` in
sequence (the two `while` loops of the source; at most one of them ever
iterates). -/
def octave_adjust (max_int prev_pitch candidate : ℤ) : ℤ :=
  let c1 := oct_down_loop max_int prev_pitch
    ((candidate - prev_pitch - max_int).toNat) candidate
  oct_up_loop max_int prev_pitch ((prev_pitch - max_int - c1).toNat) c1

/-- `NoteGenerator._apply_interval_constraint`: no previous pitch passes
the candidate through unclamped; otherwise octave shifts toward the
previous pitch, register-centre fallback if still too far, then the
MIDI clamp to `[0, 127]`. -/
def apply_interval_constraint (g : NoteGenerator) (candidate : ℤ)
    (prev_pitch : Option ℤ) (segment : MusicSegment) : ℤ :=
  match prev_pitch with
  | none => candidate
  | some pp =>
    let max_int := g.max_interval_semitones
    let c2 := octave_adjust max_int pp candidate
    let c3 := if max_int < |c2 - pp| then compute_register_center segment
      else c2
    max 0 (min 127 c3)

/-- `NoteGenerator._dynamic_octave_shift` (default thresholds `0.8` and
`0.2`): `±12` when the slot amplitude relative to the bar maximum is
extreme. -/
def dynamic_octave_shift (bar : Bar) (slot_idx : ℕ) : ℤ :=
  let amps := bar.amplitude_slots
  if amps.length ≤ slot_idx then 0
  else if amps.length = 0 then 0
  else
    let a := amps.getD slot_idx 0
    let a_max := pyListMax amps
    if a_max ≤ 0 then 0
    else
      let rel := a / a_max
      if 8 / 10 < rel then 12
      else if rel < 2 / 10 then -12
      else 0

/-- `NoteGenerator._base_velocity_for_slot`. -/
def base_velocity_for_slot (g : NoteGenerator) (slot_idx : ℕ) : ℤ :=
  if slot_idx = 0 then g.base_velocity_downbeat
  else if slot_idx % g.slots_per_beat = 0 then g.base_velocity_beat
  else g.base_velocity_offbeat

/-- The `for j in range(slot_idx + 1, n_slots)` search for the next
note-on in `generate_notes_for_segment`. -/
def find_next_on (note_positions : List ℤ) (slot_idx : ℕ) : Option ℕ :=
  ((note_positions.drop (slot_idx + 1)).findIdx? (fun v => v == 1)).map
    (fun j => slot_idx + 1 + j)

/-- One chord-voice emission of the slot-0 full-chord branch of
`generate_notes_for_segment`: voice `p.2` at enumeration index `p.1`,
with the upper voices slightly attenuated
(`vel * (1.0 - 0.1 * voice_idx)`, rounded and clamped). -/
def chord_event_of (g : NoteGenerator) (t_start t_end : ℚ) (vel ch pr : ℤ)
    (p : ℕ × ℤ) : NoteEvent × Bool :=
  (⟨t_start, t_end, p.2,
    max g.min_velocity (min g.max_velocity
      (pyRound ((vel : ℚ) * (1 - 1 / 10 * (p.1 : ℚ))))), ch, pr⟩, true)

/-- The slot loop of `NoteGenerator.generate_notes_for_segment` for one
bar.  Each produced event is tagged `true` when it was emitted by the
slot-0 full-chord branch (one event per chord voice) and `false` for a
single melodic note.  `rms_factor` stands for the transcendental
`_rms_scaling_factor(segment)` (`1 + 0.2*tanh(log10(rms)+6)`), which has
no exact rational value; the pitch pipeline does not depend on it.
Returns the events in emission order together with the final
`prev_pitch`. -/
def slot_loop (g : NoteGenerator) (segment : MusicSegment) (bar : Bar)
    (chord_tones non_chord_tones chord_voices : List ℤ)
    (slot_duration rms_factor : ℚ) (channel program : ℤ) :
    List ℕ → Option ℤ → List (NoteEvent × Bool) × Option ℤ
  | [], prev_pitch => ([], prev_pitch)
  | slot_idx :: more, prev_pitch =>
    let is_on := bar.note_positions.getD slot_idx 0
    if is_on = 0 then
      slot_loop g segment bar chord_tones non_chord_tones chord_voices
        slot_duration rms_factor channel program more prev_pitch
    else
      let t_start := bar.t_start + (slot_idx : ℚ) * slot_duration
      let t_end := match find_next_on bar.note_positions slot_idx with
        | none => bar.t_end
        | some j => bar.t_start + (j : ℚ) * slot_duration
      if t_end ≤ t_start then
        slot_loop g segment bar chord_tones non_chord_tones chord_voices
          slot_duration rms_factor channel program more prev_pitch
      else
        let candidate0 := choose_pitch_candidate g chord_tones
          non_chord_tones slot_idx prev_pitch segment
        let candidate := candidate0 + dynamic_octave_shift bar slot_idx
        let pitch := apply_interval_constraint g candidate prev_pitch
          segment
        let base_vel := base_velocity_for_slot g slot_idx
        let vel := max g.min_velocity (min g.max_velocity
          (pyRound ((base_vel : ℚ) * rms_factor)))
        if slot_idx = 0 ∧ chord_voices ≠ [] then
          let chord_events := (List.enumFrom 0 chord_voices).map
            (chord_event_of g t_start t_end vel channel program)
          let r := slot_loop g segment bar chord_tones non_chord_tones
            chord_voices slot_duration rms_factor channel program more
            (some (chord_voices.getLast?.getD 0))
          (chord_events ++ r.1, r.2)
        else
          let r := slot_loop g segment bar chord_tones non_chord_tones
            chord_voices slot_duration rms_factor channel program more
            (some pitch)
          ((⟨t_start, t_end, pitch, vel, channel, program⟩, false) :: r.1,
            r.2)

/-- The bar loop of `NoteGenerator.generate_notes_for_segment`: a bar
whose `note_positions` length differs from the configured slot count
raises; a bar of non-positive duration is skipped; otherwise the
precomputed per-bar pitch material feeds the slot loop, and `prev_pitch`
carries across bars. -/
def bars_loop (g : NoteGenerator) (segment : MusicSegment)
    (rms_factor : ℚ) (center_pitch : ℤ) (channel program : ℤ) :
    Option ℤ → List Bar → Except String (List (NoteEvent × Bool))
  | _, [] => .ok []
  | prev_pitch, bar :: rest =>
    let ns := bar.note_positions.length
    if ns ≠ note_n_slots g then
      .error "Bar con n_slots distinto del esperado"
    else
      let bar_duration := bar.t_end - bar.t_start
      if bar_duration ≤ 0 then
        bars_loop g segment rms_factor center_pitch channel program
          prev_pitch rest
      else
        let slot_duration := bar_duration / (ns : ℚ)
        let scale_pitches := build_scale_pitches_around segment.scale
          center_pitch 12
        let ct := split_chord_nonchord scale_pitches bar.chord_pitches
        let chord_voices := select_chord_voices ct.1 center_pitch 3
        let r := slot_loop g segment bar ct.1 ct.2 chord_voices
          slot_duration rms_factor channel program (List.range ns)
          prev_pitch
        match bars_loop g segment rms_factor center_pitch channel program
          r.2 rest with
        | .error e => .error e
        | .ok evs => .ok (r.1 ++ evs)

/-- The tagged emission trace of
`NoteGenerator.generate_notes_for_segment` (before the final sort by
start time that the emitted `NoteEvent` list undergoes). -/
def generate_notes_tagged (g : NoteGenerator) (segment : MusicSegment)
    (bars : List Bar) (rms_factor : ℚ) (channel program : ℤ) :
    Except String (List (NoteEvent × Bool)) :=
  bars_loop g segment rms_factor (compute_register_center segment)
    channel program none bars

/-- `NoteGenerator.generate_notes_for_segment`: the emission trace,
untagged and sorted by start time.  Python's `list.sort` is stable; the
strict-relation insertion sort used here reverses events with equal
start times (such as the voices of one chord), a tie-order deviation
only. -/
def generate_notes_for_segment (g : NoteGenerator)
    (segment : MusicSegment) (bars : List Bar) (rms_factor : ℚ)
    (channel program : Option ℤ) : Except String (List NoteEvent) :=
  let ch := channel.getD g.default_channel
  let pr := program.getD g.default_program
  match generate_notes_tagged g segment bars rms_factor ch pr with
  | .error e => .error e
  | .ok evs => .ok (List.insertionSort
      (fun a b : NoteEvent => a.t_start < b.t_start) (evs.map Prod.fst))

/-- The melodic-continuity property of claim C3 over an emission trace:
every single-note event (tag `false`) lies within `max_int` semitones of
the previously emitted pitch, when one exists; chord-branch events
(tag `true`) are exempt, but do advance the previous pitch. -/
def chain_ok (max_int : ℤ) : Option ℤ → List (NoteEvent × Bool) → Bool
  | _, [] => true
  | prev, e :: rest =>
    (if e.2 then true
     else match prev with
       | none => true
       | some p => decide (|e.1.pitch_midi - p| ≤ max_int)) &&
    chain_ok max_int (some e.1.pitch_midi) rest

/-- The pitch the generator would continue from after emitting `l` on
top of state `prev`. -/
def last_pitch (prev : Option ℤ) (l : List (NoteEvent × Bool)) : Option ℤ :=
  match l.getLast? with
  | some e => some e.1.pitch_midi
  | none => prev

/-- With enough fuel the down-shift loop lands at or below
`prev_pitch + max_int`, and either never moved or overshot by less than
an octave. -/
theorem oct_down_loop_spec (max_int pp : ℤ) :
    ∀ (fuel : ℕ) (c : ℤ), c - pp - max_int ≤ (fuel : ℤ) →
      oct_down_loop max_int pp fuel c - pp ≤ max_int ∧
        (oct_down_loop max_int pp fuel c = c ∨
          max_int - 12 < oct_down_loop max_int pp fuel c - pp)
  | 0, c, h => by
    refine ⟨by simp only [oct_down_loop]; omega, Or.inl rfl⟩
  | fuel + 1, c, h => by
    simp only [oct_down_loop]
    by_cases hc : max_int < c - pp
    · rw [if_pos hc]
      have := oct_down_loop_spec max_int pp fuel (c - 12) (by omega)
      omega
    · rw [if_neg hc]
      exact ⟨by omega, Or.inl rfl⟩

/-- Dual fuel specification for the up-shift loop. -/
theorem oct_up_loop_spec (max_int pp : ℤ) :
    ∀ (fuel : ℕ) (c : ℤ), pp - max_int - c ≤ (fuel : ℤ) →
      pp - oct_up_loop max_int pp fuel c ≤ max_int ∧
        (oct_up_loop max_int pp fuel c = c ∨
          oct_up_loop max_int pp fuel c - pp < 12 - max_int)
  | 0, c, h => by
    refine ⟨by simp only [oct_up_loop]; omega, Or.inl rfl⟩
  | fuel + 1, c, h => by
    simp only [oct_up_loop]
    by_cases hc : c - pp < -max_int
    · rw [if_pos hc]
      have := oct_up_loop_spec max_int pp fuel (c + 12) (by omega)
      omega
    · rw [if_neg hc]
      exact ⟨by omega, Or.inl rfl⟩

/-- At the default maximum interval of 12 semitones, the two octave
loops always land within 12 semitones of the previous pitch. -/
theorem octave_adjust_close (pp c : ℤ) :
    -12 ≤ octave_adjust 12 pp c - pp ∧ octave_adjust 12 pp c - pp ≤ 12 := by
  have h1 := oct_down_loop_spec 12 pp ((c - pp - 12).toNat) c (by omega)
  have h2 := oct_up_loop_spec 12 pp
    ((pp - 12 - oct_down_loop 12 pp ((c - pp - 12).toNat) c).toNat)
    (oct_down_loop 12 pp ((c - pp - 12).toNat) c) (by omega)
  simp only [octave_adjust]
  omega

/-- The register centre is always clamped into `[36, 96]`. -/
theorem compute_register_center_bounds (segment : MusicSegment) :
    36 ≤ compute_register_center segment ∧
      compute_register_center segment ≤ 96 := by
  simp only [compute_register_center]
  omega

/-- When the previous pitch lies in `[-12, 139]` (every pitch the
generator ever stores does) and the maximum interval is the default 12,
the interval constraint lands within 12 semitones of it and inside the
MIDI range — the register-centre fallback and the final clamp never
break the bound. -/
theorem apply_interval_constraint_close (g : NoteGenerator) (c pp : ℤ)
    (segment : MusicSegment) (hmi : g.max_interval_semitones = 12)
    (hlo : -12 ≤ pp) (hhi : pp ≤ 139) :
    |apply_interval_constraint g c (some pp) segment - pp| ≤ 12 ∧
      0 ≤ apply_interval_constraint g c (some pp) segment ∧
      apply_interval_constraint g c (some pp) segment ≤ 127 := by
  obtain ⟨hA, hB⟩ := octave_adjust_close pp c
  simp only [apply_interval_constraint, hmi]
  rw [if_neg (not_lt.mpr (abs_le.mpr ⟨by omega, by omega⟩))]
  exact ⟨abs_le.mpr ⟨by omega, by omega⟩, by omega, by omega⟩

/-- Python `min(..., key=...)` folds to a member of the list. -/
theorem py_foldl_min_mem (key : ℤ → ℚ) :
    ∀ (t : List ℤ) (a : ℤ),
      t.foldl (fun best p => if key p < key best then p else best) a ∈ a :: t
  | [], a => by simp
  | p :: t, a => by
    simp only [List.foldl_cons]
    have h := py_foldl_min_mem key t (if key p < key a then p else a)
    by_cases hc : key p < key a
    · rw [if_pos hc] at h ⊢
      rcases List.mem_cons.mp h with h | h
      · simp [h]
      · simp [h]
    · rw [if_neg hc] at h ⊢
      rcases List.mem_cons.mp h with h | h
      · simp [h]
      · simp [h]

/-- `py_min_by` with a fallback stays inside a bound satisfied by the
fallback and by every list member. -/
theorem py_min_by_getD_bounds (key : ℤ → ℚ) (cands : List ℤ) (d : ℤ)
    (hd : 0 ≤ d ∧ d ≤ 127) (hc : ∀ p ∈ cands, 0 ≤ p ∧ p ≤ 127) :
    0 ≤ (py_min_by key cands).getD d ∧ (py_min_by key cands).getD d ≤ 127 := by
  cases cands with
  | nil => simpa [py_min_by] using hd
  | cons a t =>
    simp only [py_min_by, Option.getD_some]
    exact hc _ (py_foldl_min_mem key t a)

/-- The pitch candidate always lies in the MIDI range when the chord
tones, non-chord tones and the main note do. -/
theorem choose_pitch_candidate_bounds (g : NoteGenerator)
    (ct nct : List ℤ) (slot_idx : ℕ) (prev : Option ℤ)
    (seg : MusicSegment)
    (hct : ∀ p ∈ ct, 0 ≤ p ∧ p ≤ 127)
    (hnct : ∀ p ∈ nct, 0 ≤ p ∧ p ≤ 127)
    (hmain : 0 ≤ seg.main_note_midi ∧ seg.main_note_midi ≤ 127) :
    0 ≤ choose_pitch_candidate g ct nct slot_idx prev seg ∧
      choose_pitch_candidate g ct nct slot_idx prev seg ≤ 127 := by
  simp only [choose_pitch_candidate]
  have hC : (if slot_idx % g.slots_per_beat = 0 then ct
      else if nct ≠ [] then nct else ct) = ct ∨
      (if slot_idx % g.slots_per_beat = 0 then ct
      else if nct ≠ [] then nct else ct) = nct := by
    split
    · exact Or.inl rfl
    · split
      · exact Or.inr rfl
      · exact Or.inl rfl
  rcases hC with hC | hC
  · rw [hC]
    split
    · exact hmain
    · cases prev with
      | none => exact py_min_by_getD_bounds _ _ _ hmain hct
      | some pp => exact py_min_by_getD_bounds _ _ _ hmain hct
  · rw [hC]
    split
    · exact hmain
    · cases prev with
      | none => exact py_min_by_getD_bounds _ _ _ hmain hnct
      | some pp => exact py_min_by_getD_bounds _ _ _ hmain hnct

/-- Scale pitches built around a centre stay within an octave of it. -/
theorem build_scale_pitches_around_bounds (scale : ScaleConfig)
    (center : ℤ) (p : ℤ)
    (hp : p ∈ build_scale_pitches_around scale center 12) :
    center - 12 ≤ p ∧ p ≤ center + 12 := by
  unfold build_scale_pitches_around at hp
  have h1 := (List.mem_filter.mp hp).1
  rw [List.mem_map] at h1
  obtain ⟨k, hk, rfl⟩ := h1
  rw [List.mem_range] at hk
  omega

/-- Both halves of the chord/non-chord split draw from the scale
pitches, the chord half possibly falling back to the chord pitches. -/
theorem split_chord_nonchord_mem (sp cp : List ℤ) (p : ℤ) :
    (p ∈ (split_chord_nonchord sp cp).1 → p ∈ sp ∨ p ∈ cp) ∧
    (p ∈ (split_chord_nonchord sp cp).2 → p ∈ sp) := by
  simp only [split_chord_nonchord]
  constructor
  · intro hp
    split at hp
    · exact Or.inr hp
    · exact Or.inl (List.mem_filter.mp hp).1
  · intro hp
    exact Or.inl (List.mem_filter.mp hp) |>.elim (fun h => h.1) (fun h => h)

/-- Chord voices are chosen among the chord tones. -/
theorem select_chord_voices_mem (ct : List ℤ) (center : ℤ) (mv : ℕ)
    (v : ℤ) (hv : v ∈ select_chord_voices ct center mv) : v ∈ ct := by
  simp only [select_chord_voices] at hv
  split at hv
  · simp at hv
  · have h1 : v ∈ (List.insertionSort
        (fun p q : ℤ => |p - center| < |q - center|) ct).take mv :=
      (List.perm_insertionSort _ _).mem_iff.mp hv
    exact (List.perm_insertionSort _ ct).mem_iff.mp (List.mem_of_mem_take h1)

/-- The dynamic octave shift is one of `+12`, `0`, `-12`. -/
theorem dynamic_octave_shift_cases (bar : Bar) (slot_idx : ℕ) :
    dynamic_octave_shift bar slot_idx = 12 ∨
      dynamic_octave_shift bar slot_idx = 0 ∨
      dynamic_octave_shift bar slot_idx = -12 := by
  simp only [dynamic_octave_shift]
  repeat' split
  all_goals omega

/-- The last element of a non-empty list (with default) is a member. -/
theorem getLast_getD_mem : ∀ (l : List ℤ), l ≠ [] → l.getLast?.getD 0 ∈ l
  | [], h => absurd rfl h
  | [a], _ => by simp
  | a :: b :: t, _ => by
    rw [List.getLast?_cons_cons]
    exact List.mem_cons_of_mem a (getLast_getD_mem (b :: t) (by simp))

/-- Emitting one event advances the continuation pitch to that event. -/
theorem last_pitch_cons (prev : Option ℤ) (e : NoteEvent × Bool) :
    ∀ t, last_pitch prev (e :: t) = last_pitch (some e.1.pitch_midi) t
  | [] => by simp [last_pitch]
  | f :: t => by
    simp only [last_pitch, List.getLast?_cons_cons]
    cases hl : (f :: t).getLast? with
    | none => simp at hl
    | some g => rfl

/-- The continuation pitch threads through list concatenation. -/
theorem last_pitch_append (prev : Option ℤ) :
    ∀ (a b : List (NoteEvent × Bool)),
      last_pitch prev (a ++ b) = last_pitch (last_pitch prev a) b
  | [], b => by simp [last_pitch]
  | e :: a, b => by
    rw [List.cons_append, last_pitch_cons, last_pitch_cons,
      last_pitch_append]

/-- The melodic-continuity check splits over concatenation, threading
the continuation pitch. -/
theorem chain_ok_append (mi : ℤ) :
    ∀ (a b : List (NoteEvent × Bool)) (prev : Option ℤ),
      chain_ok mi prev (a ++ b) =
        (chain_ok mi prev a && chain_ok mi (last_pitch prev a) b)
  | [], b, prev => by simp [chain_ok, last_pitch]
  | e :: a, b, prev => by
    rw [List.cons_append]
    simp only [chain_ok]
    rw [chain_ok_append mi a b, last_pitch_cons, Bool.and_assoc]

/-- Chord-tagged events always pass the melodic-continuity check. -/
theorem chain_ok_of_all_tagged (mi : ℤ) :
    ∀ (l : List (NoteEvent × Bool)) (prev : Option ℤ),
      (∀ e ∈ l, e.2 = true) → chain_ok mi prev l = true
  | [], _, _ => rfl
  | e :: t, prev, h => by
    simp only [chain_ok]
    rw [if_pos (h e (List.mem_cons_self e t)), Bool.true_and]
    exact chain_ok_of_all_tagged mi t _
      (fun f hf => h f (List.mem_cons_of_mem e hf))

/-- The continuation pitch after a run of per-voice events is the last
voice. -/
theorem last_pitch_enum_map (f : ℕ × ℤ → NoteEvent × Bool)
    (hfp : ∀ p, (f p).1.pitch_midi = p.2) :
    ∀ (voices : List ℤ) (n : ℕ) (prev : Option ℤ), voices ≠ [] →
      last_pitch prev ((List.enumFrom n voices).map f) =
        some (voices.getLast?.getD 0)
  | [], _, _, h => absurd rfl h
  | [v], n, prev, _ => by
    simp [List.enumFrom, last_pitch, hfp]
  | v :: w :: t, n, prev, _ => by
    have hrec := last_pitch_enum_map f hfp (w :: t) (n + 1) prev (by simp)
    simp only [List.enumFrom, List.map_cons] at hrec ⊢
    rw [last_pitch_cons]
    rw [List.getLast?_cons_cons]
    rw [← hrec]
    exact (last_pitch_cons prev _ _).symm ▸ rfl

/-- A slot-0 chord emission never breaks the melodic-continuity check
and hands the last (highest) voice on as the continuation pitch — the
source's `prev_pitch = chord_voices[-1]`. -/
theorem chord_chain (mi : ℤ) (g : NoteGenerator) (a b : ℚ)
    (v c d : ℤ) (voices : List ℤ) (prev : Option ℤ)
    (rest : List (NoteEvent × Bool)) (hne : voices ≠ []) :
    chain_ok mi prev
        ((List.enumFrom 0 voices).map (chord_event_of g a b v c d) ++ rest) =
      chain_ok mi (some (voices.getLast?.getD 0)) rest := by
  rw [chain_ok_append,
    chain_ok_of_all_tagged mi _ prev
      (by intro e he; obtain ⟨p, hp, rfl⟩ := List.mem_map.mp he; rfl),
    last_pitch_enum_map (chord_event_of g a b v c d) (fun p => rfl)
      voices 0 prev hne, Bool.true_and]

/-- The continuation pitch after a chord emission plus a tail. -/
theorem chord_last (g : NoteGenerator) (a b : ℚ) (v c d : ℤ)
    (voices : List ℤ) (prev : Option ℤ)
    (rest : List (NoteEvent × Bool)) (hne : voices ≠ []) :
    last_pitch prev
        ((List.enumFrom 0 voices).map (chord_event_of g a b v c d) ++ rest) =
      last_pitch (some (voices.getLast?.getD 0)) rest := by
  rw [last_pitch_append,
    last_pitch_enum_map (chord_event_of g a b v c d) (fun p => rfl)
      voices 0 prev hne]

/-- The generator's stored previous pitch always lies in `[-12, 139]`:
every constrained pitch is clamped to `[0, 127]`, every chord voice is
in MIDI range under the claim's hypotheses, and the very first
unconstrained candidate is a MIDI-range pitch shifted by at most one
octave. -/
def GoodO (prev : Option ℤ) : Prop :=
  ∀ p, prev = some p → -12 ≤ p ∧ p ≤ 139

/-- The constrained pitch of a single-note emission: within `[-12, 139]`
always, and within 12 semitones of the previous pitch when one exists. -/
theorem pitch_good (g : NoteGenerator) (seg : MusicSegment)
    (ct nct : List ℤ) (slot_idx : ℕ) (prev : Option ℤ) (sh : ℤ)
    (hmi : g.max_interval_semitones = 12)
    (hct : ∀ p ∈ ct, 0 ≤ p ∧ p ≤ 127)
    (hnct : ∀ p ∈ nct, 0 ≤ p ∧ p ≤ 127)
    (hmain : 0 ≤ seg.main_note_midi ∧ seg.main_note_midi ≤ 127)
    (hsh : sh = 12 ∨ sh = 0 ∨ sh = -12)
    (hprev : GoodO prev) :
    (-12 ≤ apply_interval_constraint g
        (choose_pitch_candidate g ct nct slot_idx prev seg + sh) prev seg ∧
      apply_interval_constraint g
        (choose_pitch_candidate g ct nct slot_idx prev seg + sh) prev seg
        ≤ 139) ∧
    (∀ pp, prev = some pp →
      |apply_interval_constraint g
        (choose_pitch_candidate g ct nct slot_idx prev seg + sh) prev seg
        - pp| ≤ 12) := by
  cases prev with
  | none =>
    have hb := choose_pitch_candidate_bounds g ct nct slot_idx none seg
      hct hnct hmain
    refine ⟨?_, by intro pp h; cases h⟩
    simp only [apply_interval_constraint]
    omega
  | some pp =>
    have hpp := hprev pp rfl
    have hc := apply_interval_constraint_close g
      (choose_pitch_candidate g ct nct slot_idx (some pp) seg + sh) pp seg
      hmi hpp.1 hpp.2
    refine ⟨⟨by omega, by omega⟩, ?_⟩
    intro q hq
    cases hq
    exact hc.1

/-- Per-bar invariant of the slot loop: with in-range pitch material and
the default 12-semitone interval, the emitted events satisfy the
melodic-continuity check, the loop's final `prev_pitch` is the last
emitted pitch (or the incoming one when nothing was emitted), and that
pitch stays in `[-12, 139]`. -/
theorem slot_loop_invariant (g : NoteGenerator) (seg : MusicSegment)
    (bar : Bar) (ct nct cv : List ℤ) (sd rf : ℚ) (ch pr : ℤ)
    (hmi : g.max_interval_semitones = 12)
    (hct : ∀ p ∈ ct, 0 ≤ p ∧ p ≤ 127)
    (hnct : ∀ p ∈ nct, 0 ≤ p ∧ p ≤ 127)
    (hcv : ∀ p ∈ cv, 0 ≤ p ∧ p ≤ 127)
    (hmain : 0 ≤ seg.main_note_midi ∧ seg.main_note_midi ≤ 127) :
    ∀ (slots : List ℕ) (prev : Option ℤ), GoodO prev →
      chain_ok 12 prev
        (slot_loop g seg bar ct nct cv sd rf ch pr slots prev).1 = true ∧
      (slot_loop g seg bar ct nct cv sd rf ch pr slots prev).2 =
        last_pitch prev
          (slot_loop g seg bar ct nct cv sd rf ch pr slots prev).1 ∧
      GoodO (slot_loop g seg bar ct nct cv sd rf ch pr slots prev).2
  | [], prev, hprev => by
    refine ⟨rfl, ?_, hprev⟩
    simp [slot_loop, last_pitch]
  | slot :: more, prev, hprev => by
    simp only [slot_loop]
    split
    · exact slot_loop_invariant g seg bar ct nct cv sd rf ch pr hmi hct
        hnct hcv hmain more prev hprev
    · split
      · exact slot_loop_invariant g seg bar ct nct cv sd rf ch pr hmi hct
          hnct hcv hmain more prev hprev
      · split
        · rename_i hcond
          have hGd : GoodO (some (cv.getLast?.getD 0)) := by
            intro q hq
            cases hq
            have := hcv _ (getLast_getD_mem cv hcond.2)
            omega
          have hIH := slot_loop_invariant g seg bar ct nct cv sd rf ch pr
            hmi hct hnct hcv hmain more (some (cv.getLast?.getD 0)) hGd
          refine ⟨?_, ?_, hIH.2.2⟩
          · rw [chord_chain 12 g _ _ _ ch pr cv prev _ hcond.2]
            exact hIH.1
          · rw [chord_last g _ _ _ ch pr cv prev _ hcond.2]
            exact hIH.2.1
        · have hp := pitch_good g seg ct nct slot prev
            (dynamic_octave_shift bar slot) hmi hct hnct hmain
            (dynamic_octave_shift_cases bar slot) hprev
          have hGd : GoodO (some (apply_interval_constraint g
              (choose_pitch_candidate g ct nct slot prev seg +
                dynamic_octave_shift bar slot) prev seg)) := by
            intro q hq
            cases hq
            exact ⟨hp.1.1, hp.1.2⟩
          have hIH := slot_loop_invariant g seg bar ct nct cv sd rf ch pr
            hmi hct hnct hcv hmain more (some (apply_interval_constraint g
              (choose_pitch_candidate g ct nct slot prev seg +
                dynamic_octave_shift bar slot) prev seg)) hGd
          refine ⟨?_, ?_, hIH.2.2⟩
          · simp only [chain_ok]
            rw [if_neg (by simp), Bool.and_eq_true]
            constructor
            · cases prev with
              | none => rfl
              | some pp =>
                rw [decide_eq_true_eq]
                exact hp.2 pp rfl
            · exact hIH.1
          · rw [last_pitch_cons]
            exact hIH.2.1

/-- Cross-bar invariant of the bar loop: under in-range chord pitches,
an in-range main note and a register centre at least an octave inside
MIDI range, every successful run satisfies the melodic-continuity check
and leaves an in-range continuation pitch. -/
theorem bars_loop_invariant (g : NoteGenerator) (seg : MusicSegment)
    (rf : ℚ) (center : ℤ) (ch pr : ℤ)
    (hmi : g.max_interval_semitones = 12)
    (hmain : 0 ≤ seg.main_note_midi ∧ seg.main_note_midi ≤ 127)
    (hcenter : 12 ≤ center ∧ center ≤ 115) :
    ∀ (bars : List Bar) (prev : Option ℤ) (l : List (NoteEvent × Bool)),
      GoodO prev →
      (∀ bar ∈ bars, ∀ p ∈ bar.chord_pitches, 0 ≤ p ∧ p ≤ 127) →
      bars_loop g seg rf center ch pr prev bars = .ok l →
      chain_ok 12 prev l = true ∧ GoodO (last_pitch prev l)
  | [], prev, l, hprev, _, hok => by
    simp only [bars_loop] at hok
    injection hok with h
    subst h
    exact ⟨rfl, hprev⟩
  | bar :: rest, prev, l, hprev, hch, hok => by
    simp only [bars_loop] at hok
    split at hok
    · simp at hok
    · split at hok
      · exact bars_loop_invariant g seg rf center ch pr hmi hmain hcenter
          rest prev l hprev
          (fun b hb => hch b (List.mem_cons_of_mem bar hb)) hok
      · split at hok
        · simp at hok
        · rename_i evs hrec
          injection hok with h
          subst h
          have hsp : ∀ p ∈ build_scale_pitches_around seg.scale center 12,
              0 ≤ p ∧ p ≤ 127 := by
            intro p hp
            have := build_scale_pitches_around_bounds seg.scale center p hp
            omega
          have hbar := hch bar (List.mem_cons_self bar rest)
          have hctb : ∀ p ∈ (split_chord_nonchord
              (build_scale_pitches_around seg.scale center 12)
              bar.chord_pitches).1, 0 ≤ p ∧ p ≤ 127 := by
            intro p hp
            rcases (split_chord_nonchord_mem _ _ p).1 hp with h | h
            · exact hsp p h
            · exact hbar p h
          have hnctb : ∀ p ∈ (split_chord_nonchord
              (build_scale_pitches_around seg.scale center 12)
              bar.chord_pitches).2, 0 ≤ p ∧ p ≤ 127 :=
            fun p hp => hsp p ((split_chord_nonchord_mem _ _ p).2 hp)
          have hcvb : ∀ p ∈ select_chord_voices (split_chord_nonchord
              (build_scale_pitches_around seg.scale center 12)
              bar.chord_pitches).1 center 3, 0 ≤ p ∧ p ≤ 127 :=
            fun p hp => hctb p (select_chord_voices_mem _ _ _ p hp)
          have hslot := slot_loop_invariant g seg bar
            (split_chord_nonchord
              (build_scale_pitches_around seg.scale center 12)
              bar.chord_pitches).1
            (split_chord_nonchord
              (build_scale_pitches_around seg.scale center 12)
              bar.chord_pitches).2
            (select_chord_voices (split_chord_nonchord
              (build_scale_pitches_around seg.scale center 12)
              bar.chord_pitches).1 center 3)
            ((bar.t_end - bar.t_start) / (bar.note_positions.length : ℚ))
            rf ch pr hmi hctb hnctb hcvb hmain
            (List.range bar.note_positions.length) prev hprev
          have hIH := bars_loop_invariant g seg rf center ch pr hmi hmain
            hcenter rest _ evs hslot.2.2
            (fun b hb => hch b (List.mem_cons_of_mem bar hb)) hrec
          constructor
          · rw [chain_ok_append, hslot.1, ← hslot.2.1, hIH.1]
            rfl
          · rw [last_pitch_append, ← hslot.2.1]
            exact hIH.2

/-- C3 (amended): for the default `max_interval_semitones = 12`, a main
note in MIDI range and bars whose chord pitches are in MIDI range, every
single-note event in the emission trace of `generate_notes_for_segment`
(tag `false`; the multi-voice slot-0 chord emissions carry tag `true`
and are exempt) lies within 12 semitones of the previously emitted
pitch whenever one exists.  The in-range hypotheses are necessary: with
an out-of-range chord pitch the final `[0, 127]` clamp of
`_apply_interval_constraint` breaks the bound
(`claim_C3_counterexample`). -/
theorem claim_C3_interval_bound_amended (g : NoteGenerator)
    (segment : MusicSegment) (bars : List Bar) (rms_factor : ℚ)
    (channel program : ℤ) (l : List (NoteEvent × Bool))
    (hmi : g.max_interval_semitones = 12)
    (hmain : 0 ≤ segment.main_note_midi ∧ segment.main_note_midi ≤ 127)
    (hchords : ∀ bar ∈ bars, ∀ p ∈ bar.chord_pitches, 0 ≤ p ∧ p ≤ 127)
    (hok : generate_notes_tagged g segment bars rms_factor channel
      program = .ok l) :
    chain_ok 12 none l = true := by
  have hc := compute_register_center_bounds segment
  exact (bars_loop_invariant g segment rms_factor
    (compute_register_center segment) channel program hmi hmain
    ⟨by omega, by omega⟩ bars none l (fun p hp => by cases hp) hchords
    hok).1



/-- A `NoteGenerator` with one slot per bar and all other fields at the
constructor defaults, in particular `max_interval_semitones = 12`. -/
def noteGen1 : NoteGenerator :=
  ⟨1, 1, 12, 105, 90, 75, true, 30, 120, 0, 0⟩

/-- A one-slot bar with the in-range chord `[60]`. -/
def barV : Bar := ⟨0, 0, 4, 60, [60], [1], 1, []⟩

set_option maxRecDepth 4000 in
theorem generate_notes_tagged_barV_eval :
    generate_notes_tagged noteGen1 musegC1 [barV] 1 0 0 =
      .ok [(⟨0, 4, 60, 105, 0, 0⟩, true), (⟨0, 4, 72, 94, 0, 0⟩, true)] := by
  have hcen : compute_register_center musegC1 = 67 := by
    norm_num [compute_register_center, musegC1, pyRound]
  have hsp : build_scale_pitches_around musegC1.scale 67 12 =
      [55, 57, 59, 60, 62, 64, 65, 67, 69, 71, 72, 74, 76, 77, 79] := by
    decide
  have hsplit : split_chord_nonchord
      [55, 57, 59, 60, 62, 64, 65, 67, 69, 71, 72, 74, 76, 77, 79]
      [(60 : ℤ)] =
      ([60, 72],
        [55, 57, 59, 62, 64, 65, 67, 69, 71, 74, 76, 77, 79]) := by
    decide
  have hcv : select_chord_voices [60, 72] 67 3 = [60, 72] := by decide
  norm_num [generate_notes_tagged, bars_loop, slot_loop, note_n_slots,
    noteGen1, barV, hcen, hsp, hsplit, hcv, List.enumFrom,
    chord_event_of, base_velocity_for_slot, pyRound, find_next_on,
    min_def, max_def]
  rw [if_neg (show ¬(([60, 72] : List ℤ) = []) by decide)]

/-- Witness for C3 (amended) at a concrete in-range input: one bar,
slot-0 chord `[60]`, main note 67 — the run succeeds and its trace
passes the melodic-continuity check. -/
theorem claim_C3_witness :
    generate_notes_tagged noteGen1 musegC1 [barV] 1 0 0 =
      .ok [(⟨0, 4, 60, 105, 0, 0⟩, true), (⟨0, 4, 72, 94, 0, 0⟩, true)] ∧
    chain_ok 12 none
      [(⟨0, 4, 60, 105, 0, 0⟩, true), (⟨0, 4, 72, 94, 0, 0⟩, true)] =
      true :=
  ⟨generate_notes_tagged_barV_eval,
    claim_C3_interval_bound_amended noteGen1 musegC1 [barV] 1 0 0 _ rfl
      (by decide) (by decide) generate_notes_tagged_barV_eval⟩

/-- A scale holding only the pitch class one semitone above the root,
so that no scale pitch matches the out-of-range chord `[300]` and the
chord-tone fallback keeps `300` itself. -/
def scaleX : ScaleConfig := ⟨60, "X", [1]⟩

/-- A music segment over `scaleX` with main note 60. -/
def musegX : MusicSegment :=
  ⟨⟨0, 1000, 0, 4⟩, 60, scaleX, .medium, 1 / 2, noFeatures⟩

/-- A `NoteGenerator` with two slots per bar and all other fields at the
constructor defaults, in particular `max_interval_semitones = 12`. -/
def noteGen2 : NoteGenerator :=
  ⟨2, 1, 12, 105, 90, 75, true, 30, 120, 0, 0⟩

/-- A two-slot bar whose chord pitch 300 lies outside the MIDI range. -/
def barX : Bar := ⟨0, 0, 4, 300, [300], [1, 1], 1, []⟩

/-- Counterexample to claim C3 as stated: for `musegX` and the single
bar `barX` (chord pitch 300, outside MIDI range), the slot-0 chord
emission stores `prev_pitch = 300`; the next single-note candidate 300
is within 12 semitones of it, but the final `[0, 127]` clamp of
`_apply_interval_constraint` rewrites it to 127, which is 173 semitones
away from the previously emitted pitch — the melodic-continuity check
fails on the emission trace. -/
theorem claim_C3_counterexample :
    (generate_notes_tagged noteGen2 musegX [barX] 1 0 0).map
      (chain_ok 12 none) = .ok false := by
  have hcen : compute_register_center musegX = 60 := by
    norm_num [compute_register_center, musegX, pyRound]
  have hsp : build_scale_pitches_around musegX.scale 60 12 = [49, 61] := by
    decide
  have hsplit : split_chord_nonchord [49, 61] [(300 : ℤ)] =
      ([300], [49, 61]) := by decide
  have hcv : select_chord_voices [300] 60 3 = [300] := by decide
  have hchoose : choose_pitch_candidate noteGen2 [300] [49, 61] 1
      (some 300) musegX = 300 := by decide
  have happ : apply_interval_constraint noteGen2 300 (some 300) musegX =
      127 := by decide
  have hshift : dynamic_octave_shift barX 1 = 0 := by decide
  have hlen : barX.note_positions.length = 2 := by decide
  have hg0 : barX.note_positions.getD 0 0 = 1 := by decide
  have hg1 : barX.note_positions.getD 1 0 = 1 := by decide
  have ht0 : barX.t_start = 0 := rfl
  have ht1 : barX.t_end = 4 := rfl
  have hcp : barX.chord_pitches = [300] := rfl
  have hfn0 : find_next_on barX.note_positions 0 = some 1 := by decide
  have hfn1 : find_next_on barX.note_positions 1 = none := by decide
  have hns : note_n_slots noteGen2 = 2 := by decide
  have hr2 : List.range 2 = [0, 1] := by decide
  have hne : (([300] : List ℤ) = []) = False := by decide
  norm_num [generate_notes_tagged, bars_loop, slot_loop, hcen, hsp,
    hsplit, hcv, hchoose, happ, hshift, hlen, hg0, hg1, ht0, ht1, hcp,
    hfn0, hfn1, hns, hr2, hne, List.enumFrom, chord_event_of, chain_ok,
    Except.map]
